import Mathlib

/-!
# Vochain application state

A shallow embedding of `vochain/state.go`: the typed accessors the vochain
keeps over its StateDB (oracles, process keys, votes), with the StateDB
itself, which the file only calls, described at the level of its contract.
After it come the list of supported networks of `ethereum/blockchains.go`,
the claims of the census tree of `censustree/iden3tree/tree.go`, the signature
functions of `crypto/signature/signature.go` and the rolling census of a
process.

Conventions of the embedding

* a Go byte slice is a list of naturals; where the code tests a slice or a
  pointer against `nil` the field is an `Option`;
* a `uint32` is a natural below `2 ^ 32`, with the wrap-around written out;
* a method that returns an `error` returns an `Except Err`; the receiver is
  passed in and the updated receiver is passed out;
* the calls made on the registered event listeners are appended to a log
  kept in the state.
-/

namespace Vochain

/-- A Go byte slice. -/
abbrev Bytes := List Nat

/-- Errors returned by the state and by the StateDB underneath it. -/
inductive Err where
  /-- The error `arbo.ErrKeyNotFound`. -/
  | KeyNotFound
  /-- The tree error for `add` on a key that is already present. -/
  | KeyAlreadyExists
  /-- The error `ErrProcessNotFound`. -/
  | ProcessNotFound
  /-- The error `ErrVoteDoesNotExist`. -/
  | VoteDoesNotExist
  /-- An error built with `fmt.Errorf` from a text only. -/
  | msg (text : String)
  /-- An error built with `fmt.Errorf` and `%w` around another error. -/
  | wrap (text : String) (inner : Err)
  /-- The error type `ErrHaltVochain`, with its reason. -/
  | HaltVochain (reason : String)
  /-- A run-time panic of the Go program. -/
  | fault (text : String)
  deriving DecidableEq, Repr

/-! ## The authenticated tree, at the level of its contract -/

/-- Modelled from the spec: the authenticated tree of the StateDB (package
`statedb`, which `state.go` imports). A tree holds `(key, value)`
pairs; the list keeps them in the order in which `iterate` visits them,
which the layout of the tree determines. -/
abbrev Tree (α : Type) := List (Bytes × α)

namespace Tree

variable {α : Type}

/-- The keys of a tree, in iteration order. -/
def keys (t : Tree α) : List Bytes := t.map Prod.fst

/-- The value stored under a key, if any. -/
def find (t : Tree α) (k : Bytes) : Option α :=
  match t with
  | [] => none
  | (k1, v) :: rest => if k1 = k then some v else find rest k

/-- Modelled from the spec: `get(key) → value | KEY_NOT_FOUND`. -/
def Get (t : Tree α) (k : Bytes) : Except Err α :=
  match t.find k with
  | some v => .ok v
  | none => .error .KeyNotFound

/-- Replaces the value of a key that is present, in place. -/
def replace (t : Tree α) (k : Bytes) (v : α) : Tree α :=
  match t with
  | [] => []
  | (k1, v1) :: rest =>
    if k1 = k then (k, v) :: replace rest k v else (k1, v1) :: replace rest k v

/-- Places a new pair where the layout puts its key: in front of the first
pair whose key does not come before the new one in the layout order. -/
def place (before : Bytes → Bytes → Bool) (t : Tree α) (k : Bytes) (v : α) : Tree α :=
  match t with
  | [] => [(k, v)]
  | (k1, v1) :: rest =>
    if before k1 k then (k1, v1) :: place before rest k v else (k, v) :: (k1, v1) :: rest

/-- Modelled from the spec: `set(key, value)` is add-or-update; an empty value
is a tombstone that remains in the tree. -/
def Set (before : Bytes → Bytes → Bool) (t : Tree α) (k : Bytes) (v : α) : Tree α :=
  match t.find k with
  | some _ => t.replace k v
  | none => t.place before k v

/-- Modelled from the spec: `add(key, value)` fails if the key is already
present. -/
def Add (before : Bytes → Bytes → Bool) (t : Tree α) (k : Bytes) (v : α) :
    Except Err (Tree α) :=
  match t.find k with
  | some _ => .error .KeyAlreadyExists
  | none => .ok (t.place before k v)

/-- Modelled from the spec: `iterate(fn)` calls `fn` over every `(key, value)`
pair, in the order the tree layout determines. The callback of the Go code is
a closure that updates captured variables and returns a boolean; here it takes
the captured variables and returns their new value with that boolean. The
spec does not say which boolean asks to stop, and the callers in `state.go`
do not agree on it, so the boolean is not acted upon: every pair is visited,
as the contract says. -/
def Iterate {σ : Type} (t : Tree α) (callback : Bytes → α → σ → σ × Bool) (init : σ) : σ :=
  match t with
  | [] => init
  | (k, v) :: rest => Iterate rest callback (callback k v init).1

end Tree

/-! ## Addresses -/

/-- The length of an address, `common.AddressLength`. -/
def AddressLength : Nat := 20

/-- The function `common.BytesToAddress`: the last twenty bytes of the input,
padded with zero bytes on the left when the input is shorter. -/
def BytesToAddress (b : Bytes) : Bytes :=
  let c := if b.length > AddressLength then b.drop (b.length - AddressLength) else b
  List.replicate (AddressLength - c.length) 0 ++ c

/-- The value stored for an oracle that is present, `exist`. -/
def exist : Bytes := [1]

/-! ## Records -/

/-- The message `models.Vote`, with the fields the state reads or writes. -/
structure Vote where
  Height : Nat := 0
  Nullifier : Bytes := []
  ProcessId : Bytes := []
  VotePackage : Bytes := []
  deriving DecidableEq, Repr

/-- The message `models.StateDBVote`, the compact record kept for a vote. -/
structure StateDBVote where
  VoteHash : Bytes := []
  ProcessId : Bytes := []
  Nullifier : Bytes := []
  deriving DecidableEq, Repr

/-- The message `models.Process`, with the fields the state reads or writes.
The key index is a `*uint32`: `none` is the nil pointer. -/
structure Process where
  ProcessId : Bytes := []
  EntityId : Bytes := []
  CensusRoot : Bytes := []
  EncryptionPrivateKeys : List String := []
  EncryptionPublicKeys : List String := []
  CommitmentKeys : List String := []
  RevealKeys : List String := []
  KeyIndex : Option Nat := none
  deriving DecidableEq, Repr

/-- The message `models.AdminTx`, with the fields the key transactions read.
A field that the code tests against `nil` is an `Option`. -/
structure AdminTx where
  ProcessId : Option Bytes := none
  KeyIndex : Option Nat := none
  CommitmentKey : Option Bytes := none
  EncryptionPublicKey : Option Bytes := none
  RevealKey : Option Bytes := none
  EncryptionPrivateKey : Option Bytes := none
  deriving DecidableEq, Repr

/-- The message `models.TendermintHeader`; the height is an `int64`. -/
structure TendermintHeader where
  Height : Int := 0
  AppHash : Bytes := []
  deriving DecidableEq, Repr

/-! ## The forest of sub-trees -/

/-- Modelled from the spec: the leaf of the processes sub-tree. The parent
leaf is a structured record that carries the process and the root of the
votes sub-tree of that process; the sub-tree stands here for its root. -/
structure ProcessLeaf where
  Process : Process := {}
  Votes : Tree Bytes := []
  deriving DecidableEq, Repr

/-- Modelled from the spec: the main tree with the sub-trees below it, as a
write context or as a view: the header under its well-known key and the
oracles, validators and processes sub-trees. `initStateDB` creates all four,
so they are always present. -/
structure Forest where
  Header : TendermintHeader := {}
  Oracles : Tree Bytes := []
  Validators : Tree Bytes := []
  Processes : Tree ProcessLeaf := []
  deriving DecidableEq, Repr

/-! ## What the state takes from outside -/

/-- The parts that `state.go` takes from other packages and libraries: the
two size constants of package `types`, the hash functions, the protocol-buffer
encoding of the records it stores, the layout order of the trees and the
digest of a forest. -/
structure Env where
  /-- The constant `types.ProcessIDsize`. -/
  ProcessIDsize : Nat
  /-- The constant `types.VoteNullifierSize`. -/
  VoteNullifierSize : Nat
  /-- The digest `sha256`. -/
  sha256 : Bytes → Bytes
  /-- The function `ethereum.HashRaw`. -/
  HashRaw : Bytes → Bytes
  /-- The function `proto.Marshal` on a vote. -/
  marshalVote : Vote → Except Err Bytes
  /-- The function `proto.Marshal` on a `StateDBVote`. -/
  marshalStateDBVote : StateDBVote → Except Err Bytes
  /-- The function `proto.Unmarshal` into a `StateDBVote`. -/
  unmarshalStateDBVote : Bytes → Except Err StateDBVote
  /-- The order in which the layout of a tree places two keys. -/
  before : Bytes → Bytes → Bool
  /-- The root digest of a forest. -/
  Hash : Forest → Bytes

/-! ## Event listeners -/

/-- A call made on an event listener. -/
inductive Call where
  | OnVote (vote : Vote) (txIndex : Int)
  | OnProcessKeys (pid : Bytes) (encryptionPub commitment : String) (txIndex : Int)
  | OnRevealKeys (pid : Bytes) (encryptionPriv reveal : String) (txIndex : Int)
  | Commit (height : Nat)
  | Rollback
  deriving DecidableEq, Repr

/-- An implementation of the interface `EventListener`: what its `Commit`
returns for a height (`none` is the nil error). The other methods return
nothing that the state reads. -/
structure EventListener where
  Commit : Nat → Option Err

/-! ## The state -/

/-- The struct `State`. `Store` is the version last committed to the StateDB,
`Tx` the open write context, `mainTreeView` the view last published. `calls`
logs the calls made on the listeners, oldest first, each with the position of
the listener in `eventListeners`. -/
structure State where
  Store : Forest := {}
  Tx : Forest := {}
  mainTreeView : Forest := {}
  txCounter : Int := 0
  eventListeners : List EventListener := []
  height : Nat := 0
  calls : List (Nat × Call) := []

namespace State

/-- The method `mainTreeViewer`: the last committed view for a query, the
open write context otherwise. -/
def mainTreeViewer (v : State) (isQuery : Bool) : Forest :=
  if isQuery then v.mainTreeView else v.Tx

/-- The method `AddEventListener`. -/
def AddEventListener (v : State) (l : EventListener) : State :=
  { v with eventListeners := v.eventListeners ++ [l] }

/-- The loop `for _, l := range v.eventListeners`, for a call that returns
nothing: one entry per listener, in registration order. -/
def fire (v : State) (c : Call) : State :=
  { v with calls := v.calls ++ (List.range v.eventListeners.length).map fun i => (i, c) }

/-- The method `Height`. -/
def Height (v : State) : Nat := v.height

/-- The method `TxCounter`. -/
def TxCounter (v : State) : Int := v.txCounter

/-- The method `TxCounterAdd`, on an `int32`. -/
def TxCounterAdd (v : State) : State :=
  { v with txCounter := (v.txCounter + 1 + 2 ^ 31) % 2 ^ 32 - 2 ^ 31 }

/-- The method `Header`. -/
def Header (v : State) (isQuery : Bool) : TendermintHeader :=
  (v.mainTreeViewer isQuery).Header

end State

/-! ## Oracles -/

/-- The method `AddOracle`: `DeepSet` of the address into the oracles
sub-tree, with the value `exist`. -/
def AddOracle (env : Env) (v : State) (address : Bytes) : Except Err State :=
  .ok { v with Tx := { v.Tx with Oracles := v.Tx.Oracles.Set env.before address exist } }

/-- The method `RemoveOracle`. -/
def RemoveOracle (env : Env) (v : State) (address : Bytes) : Except Err State :=
  let oracles := v.Tx.Oracles
  match oracles.Get address with
  | .error .KeyNotFound => .error (.wrap "oracle not found" .KeyNotFound)
  | .error err => .error err
  | .ok _ => .ok { v with Tx := { v.Tx with Oracles := oracles.Set env.before address [] } }

/-- The callback that `Oracles` passes to `Iterate`; the captured variable is
the list `oracles`. -/
def oraclesCallback (key value : Bytes) (oracles : List Bytes) : List Bytes × Bool :=
  -- removed oracles are still in the tree but with value set to nil
  if value.length = 0 then (oracles, true)
  else (oracles ++ [BytesToAddress key], true)

/-- The method `Oracles`. -/
def Oracles (v : State) (isQuery : Bool) : Except Err (List Bytes) :=
  let oraclesTree := (v.mainTreeViewer isQuery).Oracles
  .ok (oraclesTree.Iterate oraclesCallback [])

/-! ## Processes and their keys -/

/-- A hexadecimal digit, lower case. -/
def hexDigit (n : Nat) : Char :=
  if n < 10 then Char.ofNat (48 + n) else Char.ofNat (87 + n)

/-- The text `fmt.Sprintf("%x", b)` of a byte slice; the nil slice gives the
empty text. -/
def Sprintf_x (b : Option Bytes) : String :=
  String.mk ((b.getD []).flatMap fun x => [hexDigit (x / 16 % 16), hexDigit (x % 16)])

/-- The assignment `keys[i] = value` on a slice: a run-time panic when the
index is out of range. -/
def setIndex (keys : List String) (i : Nat) (value : String) : Except Err (List String) :=
  if i < keys.length then .ok (keys.set i value)
  else .error (.fault "index out of range")

/-- Modelled from the spec: the method `Process` (file `process.go`):
`get(processID, isQuery)` decodes the stored record. -/
def State.Process (v : State) (pid : Bytes) (isQuery : Bool) : Except Err Vochain.Process :=
  match (v.mainTreeViewer isQuery).Processes.Get pid with
  | .ok leaf => .ok leaf.Process
  | .error .KeyNotFound => .error .ProcessNotFound
  | .error err => .error err

/-- Modelled from the spec: the method `updateProcess` (file `process.go`):
`update(process)` re-encodes the record preserving the embedded child roots;
an update fails if the key is absent. -/
def State.updateProcess (v : State) (p : Vochain.Process) (pid : Bytes) : Except Err State :=
  match v.Tx.Processes.Get pid with
  | .ok leaf =>
    .ok { v with Tx := { v.Tx with
            Processes := v.Tx.Processes.replace pid { leaf with Process := p } } }
  | .error .KeyNotFound => .error .ProcessNotFound
  | .error err => .error err

/-- The method `AddProcessKeys`. -/
def AddProcessKeys (v : State) (tx : AdminTx) : Except Err State :=
  match tx.ProcessId, tx.KeyIndex with
  | some pid, some keyIndex => do
    let process ← v.Process pid false
    let process ← match tx.CommitmentKey with
      | some key => do
        let keys ← setIndex process.CommitmentKeys keyIndex (Sprintf_x (some key))
        pure { process with CommitmentKeys := keys }
      | none => pure process
    let process ← match tx.EncryptionPublicKey with
      | some key => do
        let keys ← setIndex process.EncryptionPublicKeys keyIndex (Sprintf_x (some key))
        pure { process with EncryptionPublicKeys := keys }
      | none => pure process
    -- a nil key index is first set to a new zero; then `*process.KeyIndex++`
    let process := { process with KeyIndex := some ((process.KeyIndex.getD 0 + 1) % 2 ^ 32) }
    let v ← v.updateProcess process pid
    pure (v.fire (.OnProcessKeys pid (Sprintf_x tx.EncryptionPublicKey)
      (Sprintf_x tx.CommitmentKey) v.TxCounter))
  | _, _ => .error (.msg "no processId or keyIndex provided on AddProcessKeys")

/-- The method `RevealProcessKeys`. -/
def RevealProcessKeys (v : State) (tx : AdminTx) : Except Err State :=
  match tx.ProcessId, tx.KeyIndex with
  | some pid, some keyIndex => do
    let process ← v.Process pid false
    match process.KeyIndex with
    | none => .error (.msg "no keys to reveal, keyIndex is < 1")
    | some processKeyIndex =>
      if processKeyIndex < 1 then .error (.msg "no keys to reveal, keyIndex is < 1")
      else do
        let (rkey, process) ← match tx.RevealKey with
          | some key => do
            let rkey := Sprintf_x (some key)
            let keys ← setIndex process.RevealKeys keyIndex rkey
            pure (rkey, { process with RevealKeys := keys })
          | none => pure ("", process)
        let (ekey, process) ← match tx.EncryptionPrivateKey with
          | some key => do
            let ekey := Sprintf_x (some key)
            let keys ← setIndex process.EncryptionPrivateKeys keyIndex ekey
            pure (ekey, { process with EncryptionPrivateKeys := keys })
          | none => pure ("", process)
        -- `*process.KeyIndex--`, on a value that is at least one
        let process := { process with KeyIndex := some (processKeyIndex - 1) }
        let v ← v.updateProcess process pid
        pure (v.fire (.OnRevealKeys pid ekey rkey v.TxCounter))
  | _, _ => .error (.msg "no processId or keyIndex provided on AddProcessKeys")

/-! ## Votes -/

/-- Modelled from the spec: `deepSubTree` on the path processes →
votes[processID]: the votes sub-tree found under the leaf of the process, and
`KEY_NOT_FOUND` when the process has no leaf. -/
def Forest.DeepSubTreeVotes (f : Forest) (processID : Bytes) : Except Err (Tree Bytes) := do
  let leaf ← f.Processes.Get processID
  pure leaf.Votes

/-- Modelled from the spec: `deepAdd` on the path processes → votes[processID]:
adds into the votes sub-tree and rewrites the leaf of the process with the new
sub-tree. -/
def Forest.DeepAddVote (before : Bytes → Bytes → Bool) (f : Forest) (key value : Bytes)
    (processID : Bytes) : Except Err Forest := do
  let leaf ← f.Processes.Get processID
  let votes ← leaf.Votes.Add before key value
  pure { f with Processes := f.Processes.replace processID { leaf with Votes := votes } }

/-- The method `voteID`: `hash(processID+nullifier)`. -/
def voteID (env : Env) (pid nullifier : Bytes) : Except Err Bytes :=
  if pid.length ≠ env.ProcessIDsize then
    .error (.msg ("wrong processID size " ++ toString pid.length))
  else if nullifier.length ≠ env.VoteNullifierSize then
    .error (.msg ("wrong nullifier size " ++ toString nullifier.length))
  else .ok (env.sha256 (pid ++ nullifier))

/-- The vote as `AddVote` stamps it: `vote.Height = v.Height()`. -/
def stamp (v : State) (vote : Vote) : Vote := { vote with Height := v.Height }

/-- The method `AddVote`. -/
def AddVote (env : Env) (v : State) (vote : Vote) : Except Err State := do
  let vid ← voteID env vote.ProcessId vote.Nullifier
  -- save block number
  let vote := stamp v vote
  let voteBytes ← match env.marshalVote vote with
    | .ok b => pure b
    | .error err => .error (.wrap "cannot marshal vote" err)
  let sdbVote : StateDBVote :=
    { VoteHash := env.HashRaw voteBytes, ProcessId := vote.ProcessId,
      Nullifier := vote.Nullifier }
  let sdbVoteBytes ← match env.marshalStateDBVote sdbVote with
    | .ok b => pure b
    | .error err => .error (.wrap "cannot marshal sdbVote" err)
  let tx ← v.Tx.DeepAddVote env.before vid sdbVoteBytes vote.ProcessId
  let v := { v with Tx := tx }
  pure (v.fire (.OnVote vote v.TxCounter))

/-- The method `Envelope`. A byte slice read out of a decoded record is nil
exactly when it is empty. -/
def Envelope (env : Env) (v : State) (processID nullifier : Bytes) (isQuery : Bool) :
    Except Err Bytes := do
  let vid ← voteID env processID nullifier
  match (v.mainTreeViewer isQuery).DeepSubTreeVotes processID with
  | .error .KeyNotFound => .error .ProcessNotFound
  | .error err => .error err
  | .ok votesTree =>
    match votesTree.Get vid with
    | .error .KeyNotFound => .error .VoteDoesNotExist
    | .error err => .error err
    | .ok sdbVoteBytes =>
      match env.unmarshalStateDBVote sdbVoteBytes with
      | .error err => .error (.wrap "cannot unmarshal sdbVote" err)
      | .ok sdbVote => .ok sdbVote.VoteHash

/-- The method `EnvelopeExists`. -/
def EnvelopeExists (env : Env) (v : State) (processID nullifier : Bytes) (isQuery : Bool) :
    Except Err Bool :=
  match Envelope env v processID nullifier isQuery with
  | .error err => if err ≠ .VoteDoesNotExist then .error err else .ok false
  | .ok e => .ok (decide (e ≠ []))

/-! ## Commit and rollback -/

/-- The conversion `uint32(h)` of an `int64`. -/
def uint32OfInt (h : Int) : Nat := (h % 2 ^ 32).toNat

/-- The loop of `Save` over the listeners: `Commit(height)` on each in turn,
from position `i` on; an `ErrHaltVochain` ends the loop and is returned, any
other error is logged and dropped. -/
def commitListeners (ls : List EventListener) (i height : Nat) (calls : List (Nat × Call)) :
    List (Nat × Call) × Option Err :=
  match ls with
  | [] => (calls, none)
  | l :: rest =>
    match l.Commit height with
    | some (.HaltVochain reason) => (calls ++ [(i, .Commit height)], some (.HaltVochain reason))
    | _ => commitListeners rest (i + 1) height (calls ++ [(i, .Commit height)])

/-- The method `Save`: commits the write context, opens a new one on the
committed version, publishes the view, calls `Commit` on the listeners and
stores the height. Returns the state with the root digest or the error. -/
def Save (env : Env) (v : State) : State × Except Err Bytes :=
  let v := { v with Store := v.Tx }
  let v := { v with mainTreeView := v.Store }
  let height := uint32OfInt (v.Header false).Height
  match commitListeners v.eventListeners 0 height v.calls with
  | (calls, some err) => ({ v with calls := calls }, .error err)
  | (calls, none) => ({ v with calls := calls, height := height }, .ok (env.Hash v.Store))

/-- The method `Rollback`. -/
def Rollback (v : State) : State :=
  let v := v.fire .Rollback
  { v with Tx := v.Store, txCounter := 0 }

/-- The method `BeginBlock` of the application (`app.go`): resets the state
to the last committed data and stores the header of the new block under the
header key, which `state.go` reads from the write context. -/
def BeginBlock (v : State) (header : TendermintHeader) : State :=
  let v := Rollback v
  { v with Tx := { v.Tx with Header := header } }

/-! ## A concrete environment

Small stand-ins for the outside parts, on which the definitions evaluate. -/

/-- The byte-wise dictionary order on keys. -/
def lexBefore : Bytes → Bytes → Bool
  | [], [] => false
  | [], _ :: _ => true
  | _ :: _, [] => false
  | a :: as, b :: bs => if a < b then true else if b < a then false else lexBefore as bs

/-- A decoder for the toy encoding of a `StateDBVote`: the length of the vote
hash, the vote hash, the length of the process identifier, the process
identifier, the nullifier. -/
def toyUnmarshal (b : Bytes) : Except Err StateDBVote :=
  match b with
  | [] => .error (.msg "unexpected end of input")
  | n :: rest =>
    match rest.drop n with
    | [] => .error (.msg "unexpected end of input")
    | m :: rest1 =>
      .ok { VoteHash := rest.take n, ProcessId := rest1.take m, Nullifier := rest1.drop m }

/-- The encoder that `toyUnmarshal` inverts. -/
def toyMarshal (x : StateDBVote) : Except Err Bytes :=
  .ok (x.VoteHash.length :: x.VoteHash ++ x.ProcessId.length :: x.ProcessId ++ x.Nullifier)

/-- An environment with sizes of 32 bytes and toy digests and encodings. -/
def toyEnv : Env where
  ProcessIDsize := 32
  VoteNullifierSize := 32
  sha256 := fun b => b.take 32
  HashRaw := fun b => [b.length]
  marshalVote := fun vote => .ok (vote.Height :: vote.ProcessId ++ vote.Nullifier ++ vote.VotePackage)
  marshalStateDBVote := toyMarshal
  unmarshalStateDBVote := toyUnmarshal
  before := lexBefore
  Hash := fun f => [f.Oracles.length, f.Validators.length, f.Processes.length]

/-! ## Shapes and examples -/

/-- The shape of the oracles sub-tree: no key twice, every key an address.
`AddOracle` and `RemoveOracle`, the only writers, keep it. -/
def OraclesOK (t : Tree Bytes) : Prop :=
  t.keys.Nodup ∧ ∀ k ∈ t.keys, k.length = AddressLength

instance (t : Tree Bytes) : Decidable (OraclesOK t) := by
  unfold OraclesOK
  exact inferInstance

/-- An address of twenty bytes, for the examples. -/
def oracleA : Bytes := List.replicate 20 170

/-- A second address, for the examples. -/
def oracleB : Bytes := List.replicate 20 187

/-- A state with one oracle present and one removed. -/
def twoOracles : State := { Tx := { Oracles := [(oracleA, exist), (oracleB, [])] } }

/-! ## Runs of calls -/

/-- The receiver after a call. When the call returns an error the receiver is
as it was: in the methods embedded here every write to the state comes after
the last error return. -/
def State.after (v : State) (r : Except Err State) : State :=
  match r with
  | .ok v1 => v1
  | .error _ => v

/-- A call of one of the two key transactions. -/
inductive KeyCall where
  | add (tx : AdminTx)
  | reveal (tx : AdminTx)
  deriving DecidableEq, Repr

/-- The transaction of a call. -/
def KeyCall.tx : KeyCall → AdminTx
  | .add tx => tx
  | .reveal tx => tx

/-- Whether a call is an `AddProcessKeys`. -/
def KeyCall.isAdd : KeyCall → Bool
  | .add _ => true
  | .reveal _ => false

/-- The result of a call on a state. -/
def KeyCall.run (v : State) : KeyCall → Except Err State
  | .add tx => AddProcessKeys v tx
  | .reveal tx => RevealProcessKeys v tx

/-- The state after a sequence of calls, each on the state the one before
left. -/
def runKeyCalls (v : State) : List KeyCall → State
  | [] => v
  | c :: rest => runKeyCalls (v.after (c.run v)) rest

/-- The number of calls of one kind, adds or reveals, that succeed in a
sequence of calls run from a state. -/
def countOk (adds : Bool) (v : State) : List KeyCall → Nat
  | [] => 0
  | c :: rest =>
    (match c.run v with
      | .ok _ => if c.isAdd = adds then 1 else 0
      | .error _ => 0) + countOk adds (v.after (c.run v)) rest

/-- The key index of a process in the write context, an unset index and a
missing process counting as zero. -/
def keyIndexOf (v : State) (pid : Bytes) : Nat :=
  match v.Process pid false with
  | .ok p => p.KeyIndex.getD 0
  | .error _ => 0

/-- A process identifier of 32 bytes, for the examples. -/
def pid0 : Bytes := List.replicate 32 1

/-- A nullifier of 32 bytes, for the examples. -/
def nullifier0 : Bytes := List.replicate 32 2

/-- A state with one listener and one process, whose key index is unset and
which has room for two keys of each kind. -/
def keyState : State :=
  { Tx := { Processes := [(pid0, { Process :=
      { ProcessId := pid0, EncryptionPrivateKeys := ["", ""], EncryptionPublicKeys := ["", ""],
        CommitmentKeys := ["", ""], RevealKeys := ["", ""] } })] },
    eventListeners := [{ Commit := fun _ => none }] }

/-- A key transaction on `pid0` that carries no key. -/
def keyTx : AdminTx := { ProcessId := some pid0, KeyIndex := some 0 }

/-- A key transaction on `pid0` that carries a commitment key and a reveal
key for the index 1. -/
def keyTx1 : AdminTx :=
  { ProcessId := some pid0, KeyIndex := some 1, CommitmentKey := some [171, 1],
    RevealKey := some [18] }

/-- The state `keyState` with the key index of its process at the largest
`uint32`. -/
def keyStateMax : State :=
  { Tx := { Processes := [(pid0, { Process := { ProcessId := pid0, KeyIndex := some 4294967295 } })] } }

/-- A vote on `pid0`. -/
def vote0 : Vote := { ProcessId := pid0, Nullifier := nullifier0, VotePackage := [5] }

/-- A forest with the process `pid0` and no vote. -/
def forest0 : Forest := { Processes := [(pid0, { Process := { ProcessId := pid0 } })] }

/-- A state just created on a StateDB that holds `forest0`, with one
listener registered. -/
def genesis : State :=
  { Store := forest0, Tx := forest0, mainTreeView := forest0,
    eventListeners := [{ Commit := fun _ => none }] }

/-- The three key calls of the example: two adds and a reveal. -/
def keyCalls : List KeyCall := [.add keyTx1, .add keyTx, .reveal keyTx1]

/-- The state after a sequence of `AddVote` calls, each on the state the one
before left. -/
def runVotes (env : Env) (v : State) : List Vote → State
  | [] => v
  | vote :: rest => runVotes env (v.after (AddVote env v vote)) rest

/-- The process `pid` has in the write context exactly one envelope under the
key `vid`, with the value `value`. -/
def HoldsVote (v : State) (pid vid value : Bytes) : Prop :=
  ∃ leaf, v.Tx.Processes.find pid = some leaf ∧ leaf.Votes.find vid = some value ∧
    leaf.Votes.countP (fun kv => decide (kv.1 = vid)) = 1

/-- A second vote on `pid0`, with another nullifier. -/
def vote1 : Vote := { ProcessId := pid0, Nullifier := List.replicate 32 3, VotePackage := [6] }

/-- An environment like `toyEnv` whose `sha256` stand-in tells nullifiers
apart. -/
def toyEnv2 : Env := { toyEnv with sha256 := fun b => b.drop 32 }

/-! ## Roots kept in the parent leaf -/

/-- The function `rootLeafGetRoot`, the `GetRootFn` of a leaf that is the root
itself. -/
def rootLeafGetRoot (value : Bytes) : Except Err Bytes :=
  if value.length ≠ 32 then
    .error (.msg ("len(value) = " ++ toString value.length ++ " != 32"))
  else .ok value

/-- The function `rootLeafSetRoot`, the `SetRootFn` of a leaf that is the root
itself. -/
def rootLeafSetRoot (value root : Bytes) : Except Err Bytes :=
  if value.length ≠ 32 then
    .error (.msg ("len(value) = " ++ toString value.length ++ " != 32"))
  else .ok root

/-- The message `models.StateDBProcess`: the process, a pointer that is nil
when the record carries no process, and the root of its votes sub-tree. -/
structure StateDBProcess where
  Process : Option Process := none
  VotesRoot : Bytes := []
  deriving DecidableEq, Repr

/-- The message `models.Validator`. -/
structure Validator where
  Address : Bytes := []
  PubKey : Bytes := []
  Power : Nat := 0
  Name : String := ""
  deriving DecidableEq, Repr

/-- The protocol-buffer encoding of the two records that the functions of this
part and the validator accessors write and read. -/
structure Wire where
  /-- The function `proto.Marshal` on a validator. -/
  marshalValidator : Validator → Except Err Bytes
  /-- The function `proto.Unmarshal` into a validator. -/
  unmarshalValidator : Bytes → Except Err Validator
  /-- The function `proto.Marshal` on a `StateDBProcess`. -/
  marshalStateDBProcess : StateDBProcess → Except Err Bytes
  /-- The function `proto.Unmarshal` into a `StateDBProcess`. -/
  unmarshalStateDBProcess : Bytes → Except Err StateDBProcess

/-- The function `processGetCensusRoot`. The field `CensusRoot` is read
through the pointer `sdbProc.Process`: a nil pointer is a run-time panic. -/
def processGetCensusRoot (w : Wire) (value : Bytes) : Except Err Bytes :=
  match w.unmarshalStateDBProcess value with
  | .error err => .error (.wrap "cannot unmarshal StateDBProcess" err)
  | .ok sdbProc =>
    match sdbProc.Process with
    | none => .error (.fault "nil pointer dereference")
    | some process => .ok process.CensusRoot

/-- The function `processSetCensusRoot`. The field `CensusRoot` is written
through the pointer `sdbProc.Process`: a nil pointer is a run-time panic. -/
def processSetCensusRoot (w : Wire) (value root : Bytes) : Except Err Bytes :=
  match w.unmarshalStateDBProcess value with
  | .error err => .error (.wrap "cannot unmarshal StateDBProcess" err)
  | .ok sdbProc =>
    match sdbProc.Process with
    | none => .error (.fault "nil pointer dereference")
    | some process =>
      match w.marshalStateDBProcess
          { sdbProc with Process := some { process with CensusRoot := root } } with
      | .error err => .error (.wrap "cannot marshal StateDBProcess" err)
      | .ok newValue => .ok newValue

/-- The function `processGetVotesRoot`. -/
def processGetVotesRoot (w : Wire) (value : Bytes) : Except Err Bytes :=
  match w.unmarshalStateDBProcess value with
  | .error err => .error (.wrap "cannot unmarshal StateDBProcess" err)
  | .ok sdbProc => .ok sdbProc.VotesRoot

/-- The function `processSetVotesRoot`. -/
def processSetVotesRoot (w : Wire) (value root : Bytes) : Except Err Bytes :=
  match w.unmarshalStateDBProcess value with
  | .error err => .error (.wrap "cannot unmarshal StateDBProcess" err)
  | .ok sdbProc =>
    match w.marshalStateDBProcess { sdbProc with VotesRoot := root } with
    | .error err => .error (.wrap "cannot marshal StateDBProcess" err)
    | .ok newValue => .ok newValue

/-! ## The query for the block height -/

/-- The response `abcitypes.ResponseQuery`, with the fields the query sets. -/
structure ResponseQuery where
  Code : Nat := 0
  Value : Bytes := []
  Info : String := ""
  deriving DecidableEq, Repr

/-- The case `getBlockHeight` of the method `Query` of the application
(`app.go`). `h` is the pointer that `app.State.Header()` returned, `none` for
nil; `marshal` is `app.Codec.MarshalBinaryBare` on that pointer. -/
def QueryGetBlockHeight (marshal : Option TendermintHeader → Except Err Bytes)
    (h : Option TendermintHeader) : ResponseQuery :=
  if h ≠ none then { Code := 1, Info := "cannot get height" }
  else
    let hbytes := match marshal h with
      | .ok b => b
      | .error _ => []
    { Code := 0, Value := hbytes }

/-! ## The working root -/

/-- The method `WorkingHash`: the root of the open write context. -/
def WorkingHash (env : Env) (v : State) : Bytes := env.Hash v.Tx

/-! ## Listeners and blocks of the examples -/

/-- A stand-in for the header encoding: the height of the header, and nothing
for the nil pointer. -/
def toyMarshalHeader (h : Option TendermintHeader) : Except Err Bytes :=
  match h with
  | some header => .ok [header.Height.toNat]
  | none => .ok []

/-- A listener that returns no error. -/
def quiet : EventListener := { Commit := fun _ => none }

/-- A listener whose `Commit` returns an error that is not a halt. -/
def failing : EventListener := { Commit := fun _ => some (.msg "index is behind") }

/-- A listener whose `Commit` halts the chain. -/
def halting : EventListener := { Commit := fun _ => some (.HaltVochain "disk full") }

/-- Whether a listener halts the chain at a height. -/
def EventListener.halts (l : EventListener) (height : Nat) : Prop :=
  ∃ reason, l.Commit height = some (.HaltVochain reason)

/-- A state whose write context holds the header of block 7, over a state
height of 6, with three listeners of which the second fails without
halting. -/
def blockSeven (third : EventListener) : State :=
  { Tx := { Header := { Height := 7 }, Oracles := [(oracleA, exist)] },
    eventListeners := [quiet, failing, third], height := 6, txCounter := 3 }

/-- A step of a block: one of the transactions that call the listeners, or
the increment of the transaction counter. -/
inductive BlockOp where
  | vote (x : Vote)
  | addKeys (tx : AdminTx)
  | revealKeys (tx : AdminTx)
  | counterAdd
  deriving DecidableEq, Repr

/-- The state after a step of a block. -/
def BlockOp.run (env : Env) (v : State) : BlockOp → State
  | .vote x => v.after (AddVote env v x)
  | .addKeys tx => v.after (AddProcessKeys v tx)
  | .revealKeys tx => v.after (RevealProcessKeys v tx)
  | .counterAdd => v.TxCounterAdd

/-- The state after the steps of a block, in turn. -/
def runBlock (env : Env) (v : State) : List BlockOp → State
  | [] => v
  | op :: rest => runBlock env (op.run env v) rest

/-- The number of increments of the transaction counter among the steps. -/
def countAdds : List BlockOp → Nat
  | [] => 0
  | .counterAdd :: rest => countAdds rest + 1
  | _ :: rest => countAdds rest

/-- A block of two transactions on `genesis`: a vote, the increment of the
counter, a second vote, the increment of the counter. -/
def twoVotesBlock : List BlockOp := [.vote vote0, .counterAdd, .vote vote1, .counterAdd]

/-- The state after `AddOracle` on each address of a list in turn, as
`InitChain` does with the oracles of the genesis. -/
def addOracles (env : Env) (v : State) : List Bytes → State
  | [] => v
  | a :: rest => addOracles env (v.after (AddOracle env v a)) rest

/-! ## Validators -/

/-- The method `AddValidator`: `DeepSet` of the encoded validator into the
validators sub-tree, under the address of the validator. -/
def AddValidator (env : Env) (w : Wire) (v : State) (validator : Validator) :
    Except Err State :=
  match w.marshalValidator validator with
  | .error err => .error err
  | .ok validatorBytes =>
    .ok { v with Tx := { v.Tx with
            Validators := v.Tx.Validators.Set env.before validator.Address validatorBytes } }

/-- The method `RemoveValidator`. -/
def RemoveValidator (env : Env) (v : State) (address : Bytes) : Except Err State :=
  let validators := v.Tx.Validators
  match validators.Get address with
  | .error .KeyNotFound => .error (.wrap "validator not found" .KeyNotFound)
  | .error err => .error err
  | .ok _ => .ok { v with Tx := { v.Tx with Validators := validators.Set env.before address [] } }

/-- The callback that `Validators` passes to `Iterate`; the captured variables
are the list `validators` and the error `callbackErr`. -/
def validatorsCallback (w : Wire) (_key value : Bytes) (st : List Validator × Option Err) :
    (List Validator × Option Err) × Bool :=
  -- removed validators are still in the tree but with value set to nil
  if value.length = 0 then (st, true)
  else
    match w.unmarshalValidator value with
    | .error err => ((st.1, some err), false)
    | .ok validator => ((st.1 ++ [validator], st.2), true)

/-- The method `Validators`. -/
def Validators (w : Wire) (v : State) (isQuery : Bool) : Except Err (List Validator) :=
  let validatorsTree := (v.mainTreeViewer isQuery).Validators
  match validatorsTree.Iterate (validatorsCallback w) ([], none) with
  | (_, some callbackErr) => .error callbackErr
  | (validators, none) => .ok validators

/-- A decoder for the toy encoding of a validator: the length of the address,
the address, the length of the key, the key, the power, the characters of the
name. -/
def toyUnmarshalValidator (b : Bytes) : Except Err Validator :=
  match b with
  | [] => .error (.msg "unexpected end of input")
  | n :: rest =>
    match rest.drop n with
    | [] => .error (.msg "unexpected end of input")
    | m :: rest1 =>
      match rest1.drop m with
      | [] => .error (.msg "unexpected end of input")
      | power :: name =>
        .ok { Address := rest.take n, PubKey := rest1.take m, Power := power,
              Name := String.mk (name.map Char.ofNat) }

/-- The encoder that `toyUnmarshalValidator` inverts. -/
def toyMarshalValidator (x : Validator) : Except Err Bytes :=
  .ok (x.Address.length :: x.Address ++ x.PubKey.length :: x.PubKey ++
    x.Power :: x.Name.data.map Char.toNat)

/-- A decoder for the toy encoding of a `StateDBProcess`, which keeps the two
roots only: a first byte that tells whether the record carries a process,
then for a process the length of the census root and the census root, then
the votes root. -/
def toyUnmarshalProcess (b : Bytes) : Except Err StateDBProcess :=
  match b with
  | [] => .error (.msg "unexpected end of input")
  | 0 :: votesRoot => .ok { Process := none, VotesRoot := votesRoot }
  | _ :: [] => .error (.msg "unexpected end of input")
  | _ :: n :: rest =>
    .ok { Process := some { CensusRoot := rest.take n }, VotesRoot := rest.drop n }

/-- The encoder that `toyUnmarshalProcess` inverts on the records whose process
has no other field set than the census root. -/
def toyMarshalProcess (x : StateDBProcess) : Except Err Bytes :=
  match x.Process with
  | none => .ok (0 :: x.VotesRoot)
  | some p => .ok (1 :: p.CensusRoot.length :: p.CensusRoot ++ x.VotesRoot)

/-- The toy encodings of the validator and of the process record. -/
def toyWire : Wire where
  marshalValidator := toyMarshalValidator
  unmarshalValidator := toyUnmarshalValidator
  marshalStateDBProcess := toyMarshalProcess
  unmarshalStateDBProcess := toyUnmarshalProcess

/-- A process record with a census root and a votes root, for the examples. -/
def record0 : StateDBProcess := { Process := some { CensusRoot := [1, 2] }, VotesRoot := [3] }

/-! ## The votes of a process -/

/-- A call that writes through the write context or moves the counter. -/
inductive Mutation where
  | addOracle (address : Bytes)
  | removeOracle (address : Bytes)
  | addValidator (validator : Validator)
  | removeValidator (address : Bytes)
  | addVote (vote : Vote)
  | addProcessKeys (tx : AdminTx)
  | revealProcessKeys (tx : AdminTx)
  | txCounterAdd
  deriving DecidableEq, Repr

/-- The state after a call. -/
def Mutation.run (env : Env) (w : Wire) (v : State) : Mutation → State
  | .addOracle address => v.after (AddOracle env v address)
  | .removeOracle address => v.after (RemoveOracle env v address)
  | .addValidator validator => v.after (AddValidator env w v validator)
  | .removeValidator address => v.after (RemoveValidator env v address)
  | .addVote vote => v.after (AddVote env v vote)
  | .addProcessKeys tx => v.after (AddProcessKeys v tx)
  | .revealProcessKeys tx => v.after (RevealProcessKeys v tx)
  | .txCounterAdd => v.TxCounterAdd

/-- An encoding like `toyWire` whose decoder, as the protocol-buffer decoder
does, reads the empty byte string as the record with no field set. -/
def emptyWire : Wire :=
  { toyWire with
    unmarshalStateDBProcess := fun b => if b = [] then .ok {} else toyUnmarshalProcess b }

/-! ## The supported Ethereum networks -/

/-- The values of `models.SourceNetworkId` that the specifications use. -/
inductive SourceNetworkId where
  | UNKNOWN
  | ETH_MAINNET
  | ETH_RINKEBY
  | ETH_GOERLI
  | POA_XDAI
  deriving DecidableEq, Repr

/-- The type `Specs`, a set of blockchain network specifications. The fields
`GenesisB64`, `BootNodes` and `Contracts` hold values of other packages and are
left out; `SpecsFor` reads none of the fields. -/
structure Specs where
  Name : String := ""
  GenesisHash : String := ""
  NetworkId : Int := 0
  StartingBlock : Int := 0
  NetworkSource : SourceNetworkId := .UNKNOWN
  deriving DecidableEq, Repr

/-- The variable `AvailableChains`, the list of supported ethereum networks. -/
def AvailableChains : List String :=
  ["mainnet", "goerli", "goerlistage", "xdai", "xdaistage", "rinkeby"]

/-- The variable `mainnet`. -/
def mainnet : Specs :=
  { Name := "mainnet", NetworkId := 1, StartingBlock := 10230300,
    NetworkSource := .ETH_MAINNET }

/-- The variable `xdai`. -/
def xdai : Specs :=
  { Name := "xdai", NetworkId := 100, StartingBlock := 14531875, NetworkSource := .POA_XDAI }

/-- The variable `xdaistage`. -/
def xdaistage : Specs :=
  { Name := "xdaistage", NetworkId := 100, StartingBlock := 14531875,
    NetworkSource := .POA_XDAI }

/-- The variable `rinkeby`. -/
def rinkeby : Specs :=
  { Name := "rinkeby", NetworkId := 4, StartingBlock := 8399062,
    NetworkSource := .ETH_RINKEBY }

/-- The variable `goerli`. -/
def goerli : Specs :=
  { Name := "goerli", NetworkId := 5, StartingBlock := 3000000, NetworkSource := .ETH_GOERLI,
    GenesisHash := "0xbf7e331f7f7c1dd2e05159666b3bf8bc7a8a3a9eb1d518969eab529dd9b88c1a" }

/-- The variable `goerlistage`, which takes three fields from `goerli`. -/
def goerlistage : Specs :=
  { Name := "goerlistage", NetworkId := goerli.NetworkId,
    StartingBlock := goerli.StartingBlock, NetworkSource := .ETH_GOERLI,
    GenesisHash := goerli.GenesisHash }

/-- The function `SpecsFor`: the specs for the given blockchain network name.
The cases of the `switch` are tried in the order of the source. -/
def SpecsFor (name : String) : Except Err Specs :=
  if name = "mainnet" then .ok mainnet
  else if name = "goerli" then .ok goerli
  else if name = "xdai" then .ok xdai
  else if name = "xdaistage" then .ok xdaistage
  else if name = "goerlistage" then .ok goerlistage
  else if name = "rinkeby" then .ok rinkeby
  else .error (.msg "chain name not found")

/-! ## The census tree over claims (package `iden3tree`) -/

/-- The lengths `claims.IndexSlotLen` and `claims.ValueSlotLen` of the two
slots of a claim, constants of the claims library. -/
structure Slots where
  IndexSlotLen : Nat
  ValueSlotLen : Nat
  deriving DecidableEq, Repr

/-- The type `claims.ClaimBasic`, with its two slots; `IndexSlot` is an array
of `IndexSlotLen` bytes and `ValueSlot` an array of `ValueSlotLen` bytes. -/
structure ClaimBasic where
  IndexSlot : Bytes
  ValueSlot : Bytes
  deriving DecidableEq, Repr

/-- The constant `HashSize`. -/
def HashSize : Nat := 32

/-- The constant `MaxIndexSize`. -/
def MaxIndexSize (s : Slots) : Nat := s.IndexSlotLen

/-- The constant `MaxValueSize`: 2 less than the slot, because the 2 first
bytes are used to store the length of index and value. -/
def MaxValueSize (s : Slots) : Nat := s.ValueSlotLen - 2

/-- The method `MaxKeySize` of the tree. -/
def MaxKeySize (s : Slots) : Nat := MaxIndexSize s

/-- The number of elements that the built-in `copy(dst[off:], src)` copies:
the smaller of the two lengths. -/
def copyCount (dst src : Bytes) (off : Nat) : Nat := min (dst.length - off) src.length

/-- The array `dst` after the built-in `copy(dst[off:], src)`. -/
def copyBytes (dst src : Bytes) (off : Nat) : Bytes :=
  dst.take off ++ src.take (copyCount dst src off) ++ dst.drop (off + copyCount dst src off)

/-- The function `getClaimFromData`. The conversion `byte(n)` keeps `n` modulo
256. -/
def getClaimFromData (s : Slots) (index value : Bytes) : Except Err ClaimBasic :=
  if index.length > s.IndexSlotLen then
    .error (.msg ("index len " ++ toString index.length ++ " can not be bigger than " ++
      toString s.IndexSlotLen))
  else if value.length > s.ValueSlotLen then
    .error (.msg ("extra len " ++ toString value.length ++ " can not be bigger than " ++
      toString s.ValueSlotLen))
  else
    let indexSlot := List.replicate s.IndexSlotLen 0
    let valueSlot := List.replicate s.ValueSlotLen 0
    let indexSlot := copyBytes indexSlot index 0
    let valueSlot := valueSlot.set 0 (index.length % 256)
    let valueSlot := valueSlot.set 1 (value.length % 256)
    let valueSlot := copyBytes valueSlot value 2
    .ok { IndexSlot := indexSlot, ValueSlot := valueSlot }

/-- The function `getDataFromClaim`. A slice expression whose bound is past
the end of the array is a run-time panic. -/
def getDataFromClaim (c : ClaimBasic) : Except Err (Bytes × Bytes) :=
  let indexSize := c.ValueSlot.getD 0 0
  let valueSize := c.ValueSlot.getD 1 0
  if indexSize > c.IndexSlot.length then .error (.fault "slice bounds out of range")
  else if valueSize + 2 > c.ValueSlot.length then .error (.fault "slice bounds out of range")
  else .ok (c.IndexSlot.take indexSize, (c.ValueSlot.take (valueSize + 2)).drop 2)

/-- The functions of the Merkle tree library that the census tree calls. A
proof is kept as the bytes it was read from. -/
structure Merkle where
  /-- The function `merkletree.NewProofFromBytes`. -/
  NewProofFromBytes : Bytes → Except Err Bytes
  /-- The method `HValue` of the entry of a claim. -/
  HValue : ClaimBasic → Except Err Bytes
  /-- The method `HIndex` of the entry of a claim. -/
  HIndex : ClaimBasic → Except Err Bytes
  /-- The function `merkletree.VerifyProof`, on the root hash, the proof, the
  hash of the index and the hash of the value. -/
  VerifyProof : Bytes → Bytes → Bytes → Bytes → Bool
  /-- The method `AddClaim` of the Merkle tree, with the error it returns. -/
  AddClaim : ClaimBasic → Option Err

/-- The method `Add` of the census tree: the error it returns. -/
def Iden3tree.Add (s : Slots) (m : Merkle) (index value : Bytes) : Option Err :=
  if index.length < 4 then
    some (.msg ("claim index too small (" ++ toString index.length ++
      "), minimum size is 4 bytes"))
  else
    match getClaimFromData s index value with
    | .error err => some err
    | .ok c => m.AddClaim c

/-- The standalone function `CheckProof`. -/
def CheckProof (s : Slots) (m : Merkle) (root mproof index value : Bytes) : Except Err Bool :=
  match m.NewProofFromBytes mproof with
  | .error err => .error err
  | .ok mp =>
    let rootHash := List.replicate 32 0
    let n := copyCount rootHash root 0
    let rootHash := copyBytes rootHash root 0
    if n ≠ HashSize then
      .error (.msg ("root hash size is not correct (got " ++ toString n ++ " expected " ++
        toString HashSize ++ ")"))
    else
      match getClaimFromData s index value with
      | .error err => .error err
      | .ok c =>
        match m.HValue c with
        | .error err => .error err
        | .ok hvalue =>
          match m.HIndex c with
          | .error err => .error err
          | .ok hindex => .ok (m.VerifyProof rootHash mp hindex hvalue)

/-- Slots of 50 and 62 bytes, for the examples. -/
def slots : Slots := { IndexSlotLen := 50, ValueSlotLen := 62 }

/-- A stand-in for the Merkle tree library, for the examples: every byte
string is a proof, the hashes are the first bytes of the slots, and a proof
verifies when it is the root followed by the two hashes. -/
def toyMerkle : Merkle where
  NewProofFromBytes := fun b => .ok b
  HValue := fun c => .ok (c.ValueSlot.take 4)
  HIndex := fun c => .ok (c.IndexSlot.take 4)
  VerifyProof := fun rootHash mp hindex hvalue => decide (mp = rootHash ++ hindex ++ hvalue)
  AddClaim := fun _ => none

/-- A root hash of 32 bytes, for the examples. -/
def root32 : Bytes := List.replicate 32 1

/-- An index of 4 bytes, for the examples. -/
def index4 : Bytes := [1, 2, 3, 0]

/-- The proof that `toyMerkle` verifies for the root `root32`, the index
`index4` and the value `[5]`. -/
def proof0 : Bytes := root32 ++ [1, 2, 3, 0] ++ [4, 1, 5, 0]

/-! ## Signatures (package `signature`) -/

/-- The constant `SigningPrefix`, the prefix added when hashing. -/
def SigningPrefix : String := "\x19Ethereum Signed Message:\n"

/-- The bytes of a string. -/
def stringBytes (s : String) : Bytes := s.toUTF8.data.toList.map UInt8.toNat

/-- The value of a hexadecimal digit, as `encoding/hex` reads it. -/
def fromHexChar (c : Char) : Option Nat :=
  if '0' ≤ c ∧ c ≤ '9' then some (c.toNat - '0'.toNat)
  else if 'a' ≤ c ∧ c ≤ 'f' then some (c.toNat - 'a'.toNat + 10)
  else if 'A' ≤ c ∧ c ≤ 'F' then some (c.toNat - 'A'.toNat + 10)
  else none

/-- The decoding of the characters of a hexadecimal string, pair by pair from
the left; the odd length is reported when every pair before was valid. -/
def hexDecodeChars : List Char → Except Err Bytes
  | [] => .ok []
  | [c] =>
    match fromHexChar c with
    | none => .error (.msg "encoding/hex: invalid byte")
    | some _ => .error (.msg "encoding/hex: odd length hex string")
  | a :: b :: rest =>
    match fromHexChar a with
    | none => .error (.msg "encoding/hex: invalid byte")
    | some hi =>
      match fromHexChar b with
      | none => .error (.msg "encoding/hex: invalid byte")
      | some lo =>
        match hexDecodeChars rest with
        | .error err => .error err
        | .ok bytes => .ok ((hi * 16 + lo) :: bytes)

/-- The function `hex.DecodeString` of the standard library. -/
def hexDecodeString (s : String) : Except Err Bytes := hexDecodeChars s.data

/-- The function `sanitizeHex`: the string without a leading `0x`. -/
def sanitizeHex (hexStr : String) : String :=
  match hexStr.data with
  | '0' :: 'x' :: rest => String.mk rest
  | _ => hexStr

/-- The functions of the Ethereum library that the package calls. A public
key is kept as bytes. -/
structure Crypto where
  /-- The function `hexutil.Encode`. -/
  hexethEncode : Bytes → String
  /-- The function `hexutil.Decode`. -/
  hexethDecode : String → Except Err Bytes
  /-- The function `crypto.Keccak256Hash`, as bytes. -/
  Keccak256 : Bytes → Bytes
  /-- The function `crypto.SigToPub`, on the hash and the signature. -/
  SigToPub : Bytes → Bytes → Except Err Bytes
  /-- The function `crypto.PubkeyToAddress`. -/
  PubkeyToAddress : Bytes → Bytes
  /-- The function `crypto.VerifySignature`, on the public key, the hash and
  the signature. -/
  VerifySignature : Bytes → Bytes → Bytes → Bool

/-- The type `SignKeys`, with the list of authorized addresses; the pair of
keys is not read by the functions below. -/
structure SignKeys where
  Authorized : List Bytes := []
  deriving DecidableEq, Repr

/-- The method `AddAuthKey`: adds a new authorized address key. -/
def AddAuthKey (k : SignKeys) (address : String) : Except Err SignKeys :=
  if (stringBytes address).length = AddressLength then
    .ok { k with Authorized := k.Authorized ++ [stringBytes address] }
  else .error (.msg "Invalid address lenght")

/-- The function `Hash`: hash string data adding the Ethereum prefix. -/
def Signature.Hash (c : Crypto) (data : String) : Bytes :=
  let payloadToSign := SigningPrefix ++ toString (stringBytes data).length ++ data
  c.Keccak256 (stringBytes payloadToSign)

/-- The method `Verify` of `SignKeys`, which reads no field of the keys. The
slice `signature[:64]` is taken from the buffer of the decoding, which is the
buffer of the characters of the string: with 64 bytes or more in the signature
it is its first 64 bytes; with fewer, and a buffer of 64 bytes or more, it
runs past the signature into the characters that the decoding left in the
buffer; with a shorter buffer it is past the end of the buffer, a run-time
panic (the run time may round the capacity of a buffer up by a few bytes,
which is not modelled). -/
def Signature.Verify (c : Crypto) (message signHex pubHex : String) : Except Err Bool :=
  match hexDecodeString (sanitizeHex signHex) with
  | .error err => .error err
  | .ok signature =>
    match hexDecodeString (sanitizeHex pubHex) with
    | .error err => .error err
    | .ok pub =>
      let hash := Signature.Hash c message
      let buffer := signature ++ (stringBytes (sanitizeHex signHex)).drop signature.length
      if buffer.length < 64 then .error (.fault "slice bounds out of range")
      else .ok (c.VerifySignature pub hash (buffer.take 64))

/-- The function `AddrFromSignature`: the address that created the signature
of a message. The element `sig[64]` is read with no check of the length: an
index past the end is a run-time panic. -/
def AddrFromSignature (c : Crypto) (msg sigHex : String) : Except Err Bytes :=
  match hexDecodeString (sanitizeHex sigHex) with
  | .error err => .error err
  | .ok sig =>
    -- Hack to avoid Hex codification problems with Ethereum
    let sigHexEth := c.hexethEncode sig
    match c.hexethDecode sigHexEth with
    | .error err => .error err
    | .ok sig =>
      match sig.get? 64 with
      | none => .error (.fault "index out of range")
      | some r =>
        if r ≠ 27 ∧ r ≠ 28 then .error (.msg "Bad recovery hex")
        else
          let sig := sig.set 64 (r - 27)
          match c.SigToPub (Signature.Hash c msg) sig with
          | .error _ => .error (.msg "Bad sig")
          | .ok pubKey => .ok (c.PubkeyToAddress pubKey)

/-- The hexadecimal digit of a value below 16. -/
def hexChar (n : Nat) : Char := if n < 10 then Char.ofNat (48 + n) else Char.ofNat (87 + n)

/-- A stand-in for the Ethereum library, for the examples: the hexadecimal
functions as the library has them, the hash and the recovery of the public key
by cutting bytes. -/
def toyCrypto : Crypto where
  hexethEncode := fun b =>
    String.mk ('0' :: 'x' :: b.flatMap (fun x => [hexChar (x / 16 % 16), hexChar (x % 16)]))
  hexethDecode := fun s =>
    match s.data with
    | [] => .error (.msg "empty hex string")
    | '0' :: 'x' :: rest => hexDecodeChars rest
    | _ => .error (.msg "hex string without 0x prefix")
  Keccak256 := fun b => b.take 32
  SigToPub := fun _hash sig =>
    if sig.length = 65 then .ok (sig.take 33) else .error (.msg "invalid signature")
  PubkeyToAddress := fun pub => pub.take 20
  VerifySignature := fun pub _hash sig => decide (sig.take 33 = pub)

/-- A signature of 32 bytes, in hexadecimal. -/
def sigHex32 : String := String.join (List.replicate 32 "0a")

/-- A signature of 65 bytes whose recovery byte is 29, in hexadecimal. -/
def sigHex29 : String := String.join (List.replicate 64 "0a") ++ "1d"

/-! ## The rolling census of a process -/

/-- The first `k` bytes of a number, the least significant first. -/
def leBytes : Nat → Nat → Bytes
  | 0, _ => []
  | k + 1, n => n % 256 :: leBytes k (n / 256)

/-- The number that bytes spell, the least significant first. -/
def leValue : Bytes → Nat
  | [] => 0
  | b :: rest => b + 256 * leValue rest

/-- The function `binary.LittleEndian.PutUint64`: the 8 bytes of a `uint64`. -/
def PutUint64 (n : Nat) : Bytes := leBytes 8 n

/-- The function `binary.LittleEndian.Uint64`, on 8 bytes. -/
def Uint64 (b : Bytes) : Nat := leValue (b.take 8)

/-- Modelled from the spec: the rolling census of one process, the census
sub-tree that maps the index of an entry, 8 bytes in little-endian order, to
its key, with the reverse lookup from the key to the index. The methods
`State.AddToRollingCensus`, `census.Manager.KeyToIndex` and the `Get` of the
census tree, which `TestRollingCensus` calls, are not among the sources. -/
structure RollingCensus where
  Census : Tree Bytes := []
  KeyIndex : Tree Bytes := []
  deriving DecidableEq, Repr

/-- Modelled from the spec: `addToRollingCensus(processID, key,
optionalWeight)` appends `key` at the next integer index of the census of the
process; indices are dense from 0, so the next index is the number of entries,
and keys are unique within a process, so a key that is present is refused. The
weight is not kept. -/
def AddToRollingCensus (before : Bytes → Bytes → Bool) (c : RollingCensus) (key : Bytes) :
    Except Err RollingCensus := do
  let index := PutUint64 c.Census.length
  let keyIndex ← c.KeyIndex.Add before key index
  let census ← c.Census.Add before index key
  pure { Census := census, KeyIndex := keyIndex }

/-- Modelled from the spec: `keyToIndex(processID, key)`, the reverse lookup. -/
def KeyToIndex (c : RollingCensus) (key : Bytes) : Except Err Bytes := c.KeyIndex.Get key

/-- Modelled from the spec: the read of the census at an index. -/
def RollingCensus.Get (c : RollingCensus) (index : Bytes) : Except Err Bytes :=
  c.Census.Get index

/-- The census after `AddToRollingCensus` on each key of a list in turn, or
the first error. -/
def addKeys (before : Bytes → Bytes → Bool) (c : RollingCensus) :
    List Bytes → Except Err RollingCensus
  | [] => .ok c
  | key :: rest =>
    match AddToRollingCensus before c key with
    | .error err => .error err
    | .ok c1 => addKeys before c1 rest

/-- The census holds exactly the keys `ks`, the key of index `j` under the
encoding of `j`, and the reverse lookup holds their indices. -/
def CensusHolds (c : RollingCensus) (ks : List Bytes) : Prop :=
  c.Census.length = ks.length ∧
  (∀ j x, ks[j]? = some x →
    c.Census.find (PutUint64 j) = some x ∧ c.KeyIndex.find x = some (PutUint64 j)) ∧
  (∀ k, k ∉ ks → c.KeyIndex.find k = none) ∧
  (∀ j, ks.length ≤ j → j < 2 ^ 64 → c.Census.find (PutUint64 j) = none)

/-- Three keys of 32 bytes whose last byte is zero, for the examples. -/
def threeKeys : List Bytes :=
  [List.replicate 31 9 ++ [0], List.replicate 31 4 ++ [0], List.replicate 31 6 ++ [0]]

/-! # Theorems -/

/-! ## Facts about the tree -/

namespace Tree

variable {α : Type}

theorem find_replace_self (t : Tree α) (k : Bytes) (v : α) (h : (t.find k).isSome) :
    (t.replace k v).find k = some v := by
  induction t with
  | nil => simp [find] at h
  | cons kv rest ih =>
    obtain ⟨k1, v1⟩ := kv
    by_cases hk : k1 = k
    · simp [replace, find, hk]
    · have h1 : (find rest k).isSome := by simpa [find, hk] using h
      simp [replace, find, hk, ih h1]

theorem find_replace_other (t : Tree α) (k k2 : Bytes) (v : α) (h : k2 ≠ k) :
    (t.replace k v).find k2 = t.find k2 := by
  induction t with
  | nil => simp [replace, find]
  | cons kv rest ih =>
    obtain ⟨k1, v1⟩ := kv
    by_cases hk : k1 = k
    · have hk2 : ¬ k = k2 := fun e => h e.symm
      simp [replace, find, hk, hk2, ih]
    · simp [replace, find, hk, ih]

theorem keys_replace (t : Tree α) (k : Bytes) (v : α) : (t.replace k v).keys = t.keys := by
  induction t with
  | nil => simp [replace, keys]
  | cons kv rest ih =>
    obtain ⟨k1, v1⟩ := kv
    simp only [keys] at ih
    by_cases hk : k1 = k
    · simp [replace, keys, hk, ih]
    · simp [replace, keys, hk, ih]

theorem find_place_self (before : Bytes → Bytes → Bool) (t : Tree α) (k : Bytes) (v : α)
    (h : t.find k = none) : (t.place before k v).find k = some v := by
  induction t with
  | nil => simp [place, find]
  | cons kv rest ih =>
    obtain ⟨k1, v1⟩ := kv
    by_cases hk : k1 = k
    · simp [find, hk] at h
    · have h1 : find rest k = none := by simpa [find, hk] using h
      by_cases hb : before k1 k = true
      · simp [place, hb, find, hk, ih h1]
      · simp [place, hb, find]

theorem find_place_other (before : Bytes → Bytes → Bool) (t : Tree α) (k k2 : Bytes) (v : α)
    (h : k2 ≠ k) : (t.place before k v).find k2 = t.find k2 := by
  have hk2 : ¬ k = k2 := fun e => h e.symm
  induction t with
  | nil => simp [place, find, hk2]
  | cons kv rest ih =>
    obtain ⟨k1, v1⟩ := kv
    by_cases hb : before k1 k = true
    · simp [place, hb, find, ih]
    · simp [place, hb, find, hk2]

theorem find_Set_other (before : Bytes → Bytes → Bool) (t : Tree α) (k k2 : Bytes) (v : α)
    (h : k2 ≠ k) : (t.Set before k v).find k2 = t.find k2 := by
  unfold Set
  cases t.find k with
  | none => exact find_place_other before t k k2 v h
  | some v0 => exact find_replace_other t k k2 v h

theorem mem_of_find (t : Tree α) (k : Bytes) (v : α) (h : t.find k = some v) : (k, v) ∈ t := by
  induction t with
  | nil => simp [find] at h
  | cons kv rest ih =>
    obtain ⟨k1, v1⟩ := kv
    by_cases hk : k1 = k
    · simp [find, hk] at h
      simp [hk, h]
    · have h1 : find rest k = some v := by simpa [find, hk] using h
      exact List.mem_cons_of_mem _ (ih h1)

theorem find_of_mem (t : Tree α) (k : Bytes) (v : α) (hn : t.keys.Nodup) (h : (k, v) ∈ t) :
    t.find k = some v := by
  induction t with
  | nil => simp at h
  | cons kv rest ih =>
    obtain ⟨k1, v1⟩ := kv
    simp only [keys, List.map_cons, List.nodup_cons] at hn
    rcases List.mem_cons.mp h with e | hm
    · cases e
      simp [find]
    · have hk : k1 ≠ k := by
        intro e
        apply hn.1
        rw [e]
        exact List.mem_map.mpr ⟨(k, v), hm, rfl⟩
      have := ih hn.2 hm
      simp [find, hk, this]

end Tree

/-! ## Oracles: facts -/

theorem BytesToAddress_of_length (k : Bytes) (h : k.length = AddressLength) :
    BytesToAddress k = k := by
  simp [BytesToAddress, h]

theorem Iterate_oraclesCallback (t : Tree Bytes) (acc : List Bytes) :
    t.Iterate oraclesCallback acc =
      acc ++ (t.filter fun kv => decide (kv.2 ≠ [])).map fun kv => BytesToAddress kv.1 := by
  induction t generalizing acc with
  | nil => simp [Tree.Iterate]
  | cons kv rest ih =>
    obtain ⟨k, value⟩ := kv
    by_cases hv : value = []
    · simp [Tree.Iterate, oraclesCallback, hv, ih]
    · have hl : ¬ value.length = 0 := by simpa using hv
      simp [Tree.Iterate, oraclesCallback, hv, hl, ih]

theorem Oracles_eq (v : State) (isQuery : Bool) :
    Oracles v isQuery = .ok (((v.mainTreeViewer isQuery).Oracles.filter
      fun kv => decide (kv.2 ≠ [])).map fun kv => BytesToAddress kv.1) := by
  simp [Oracles, Iterate_oraclesCallback]

theorem oracles_listing (t : Tree Bytes) (h : OraclesOK t) :
    ((t.filter fun kv => decide (kv.2 ≠ [])).map fun kv => BytesToAddress kv.1).Nodup ∧
    ∀ a, a ∈ ((t.filter fun kv => decide (kv.2 ≠ [])).map fun kv => BytesToAddress kv.1) ↔
      ∃ value, t.find a = some value ∧ value ≠ [] := by
  obtain ⟨hn, hl⟩ := h
  have hmap : ((t.filter fun kv => decide (kv.2 ≠ [])).map fun kv => BytesToAddress kv.1) =
      (t.filter fun kv => decide (kv.2 ≠ [])).map Prod.fst := by
    apply List.map_congr_left
    intro kv hkv
    apply BytesToAddress_of_length
    apply hl
    exact List.mem_map.mpr ⟨kv, (List.mem_filter.mp hkv).1, rfl⟩
  rw [hmap]
  constructor
  · exact List.Nodup.sublist (List.Sublist.map _ (List.filter_sublist _)) hn
  · intro a
    constructor
    · intro ha
      obtain ⟨kv, hkv, rfl⟩ := List.mem_map.mp ha
      obtain ⟨hmem, hne⟩ := List.mem_filter.mp hkv
      exact ⟨kv.2, Tree.find_of_mem t kv.1 kv.2 hn hmem, by simpa using hne⟩
    · rintro ⟨value, hf, hne⟩
      exact List.mem_map.mpr ⟨(a, value),
        List.mem_filter.mpr ⟨Tree.mem_of_find t a value hf, by simpa using hne⟩, rfl⟩

theorem OraclesOK_replace (t : Tree Bytes) (k value : Bytes) (h : OraclesOK t) :
    OraclesOK (t.replace k value) := by
  unfold OraclesOK
  rw [Tree.keys_replace]
  exact h

theorem Set_of_find (before : Bytes → Bytes → Bool) (t : Tree Bytes) (k v0 v : Bytes)
    (h : t.find k = some v0) : t.Set before k v = t.replace k v := by
  simp [Tree.Set, h]

/-! ## Oracles: the claims -/

/-- C9. Removal of an oracle is a tombstone: for an address `A` whose key is in
the oracles sub-tree, `RemoveOracle(A)` succeeds, after it `Oracles(false)` does
not list `A`, the key of `A` is still in the sub-tree with the empty value, and
every other key keeps its value (the keys of the sub-tree are the same). -/
theorem RemoveOracle_tombstone (env : Env) (v : State) (A value : Bytes)
    (hok : OraclesOK v.Tx.Oracles) (hA : v.Tx.Oracles.find A = some value) :
    ∃ v1, RemoveOracle env v A = .ok v1 ∧
      (∃ l, Oracles v1 false = .ok l ∧ A ∉ l) ∧
      v1.Tx.Oracles.find A = some [] ∧
      (∀ k, k ≠ A → v1.Tx.Oracles.find k = v.Tx.Oracles.find k) ∧
      v1.Tx.Oracles.keys = v.Tx.Oracles.keys := by
  have hset := Set_of_find env.before v.Tx.Oracles A value [] hA
  refine ⟨{ v with Tx := { v.Tx with Oracles := v.Tx.Oracles.replace A [] } }, ?_, ?_, ?_, ?_, ?_⟩
  · simp [RemoveOracle, Tree.Get, hA, hset]
  · refine ⟨_, Oracles_eq _ false, ?_⟩
    intro hmem
    have hok1 : OraclesOK (v.Tx.Oracles.replace A []) := OraclesOK_replace _ A [] hok
    have := (oracles_listing _ hok1).2 A
    simp only [State.mainTreeViewer] at hmem
    obtain ⟨value1, hf, hne⟩ := this.mp hmem
    rw [Tree.find_replace_self _ A [] (by simp [hA])] at hf
    exact hne (Option.some.inj hf).symm
  · exact Tree.find_replace_self _ A [] (by simp [hA])
  · intro k hk
    exact Tree.find_replace_other _ A k [] hk
  · exact Tree.keys_replace _ A []

/-- The removal of the oracle that is present among two. -/
theorem RemoveOracle_tombstone_witness :
    OraclesOK twoOracles.Tx.Oracles ∧ twoOracles.Tx.Oracles.find oracleA = some exist ∧
    ∃ v1, RemoveOracle toyEnv twoOracles oracleA = .ok v1 ∧
      (∃ l, Oracles v1 false = .ok l ∧ oracleA ∉ l) ∧
      v1.Tx.Oracles.find oracleA = some [] ∧
      (∀ k, k ≠ oracleA → v1.Tx.Oracles.find k = twoOracles.Tx.Oracles.find k) ∧
      v1.Tx.Oracles.keys = twoOracles.Tx.Oracles.keys :=
  have h : OraclesOK twoOracles.Tx.Oracles := by decide
  ⟨h, by decide, RemoveOracle_tombstone toyEnv twoOracles oracleA exist h (by decide)⟩

/-- C10. `RemoveOracle` on an address that was added and then removed: the
address is not in the list that `Oracles(false)` returns, and yet the call
returns no error, where an oracle that is not current should give the error
oracle not found. -/
theorem RemoveOracle_removed_again :
    ∃ v1 v2 v3, AddOracle toyEnv {} oracleA = .ok v1 ∧
      RemoveOracle toyEnv v1 oracleA = .ok v2 ∧
      Oracles v2 false = .ok [] ∧
      RemoveOracle toyEnv v2 oracleA = .ok v3 ∧
      v3.Tx = v2.Tx :=
  ⟨_, _, _, rfl, rfl, rfl, rfl, rfl⟩

/-! ## Process keys: facts -/

theorem Process_of_find (v : State) (pid : Bytes) (isQuery : Bool) (leaf : ProcessLeaf)
    (h : (v.mainTreeViewer isQuery).Processes.find pid = some leaf) :
    v.Process pid isQuery = .ok leaf.Process := by
  simp [State.Process, Tree.Get, h]

theorem find_of_Process (v : State) (pid : Bytes) (isQuery : Bool) (p : Process)
    (h : v.Process pid isQuery = .ok p) :
    ∃ leaf, (v.mainTreeViewer isQuery).Processes.find pid = some leaf ∧ leaf.Process = p := by
  unfold State.Process Tree.Get at h
  cases hf : (v.mainTreeViewer isQuery).Processes.find pid with
  | none => simp [hf] at h
  | some leaf =>
    simp [hf] at h
    exact ⟨leaf, rfl, h⟩

theorem updateProcess_ok (v v1 : State) (p : Process) (pid : Bytes)
    (h : v.updateProcess p pid = .ok v1) :
    ∃ leaf, v.Tx.Processes.find pid = some leaf ∧
      v1 = { v with Tx := { v.Tx with
        Processes := v.Tx.Processes.replace pid { leaf with Process := p } } } := by
  unfold State.updateProcess Tree.Get at h
  cases hf : v.Tx.Processes.find pid with
  | none => simp [hf] at h
  | some leaf =>
    simp [hf] at h
    exact ⟨leaf, rfl, h.symm⟩

theorem Process_after_update (v v0 : State) (p : Process) (pid : Bytes) (c : Call)
    (h : v.updateProcess p pid = .ok v0) : (v0.fire c).Process pid false = .ok p := by
  obtain ⟨leaf, hf, rfl⟩ := updateProcess_ok v v0 p pid h
  have := Tree.find_replace_self v.Tx.Processes pid { leaf with Process := p } (by simp [hf])
  simp [State.Process, State.fire, State.mainTreeViewer, Tree.Get, this]

theorem AddProcessKeys_ok (v v1 : State) (tx : AdminTx) (pid : Bytes)
    (hp : tx.ProcessId = some pid) (h : AddProcessKeys v tx = .ok v1) :
    ∃ p p1, v.Process pid false = .ok p ∧ v1.Process pid false = .ok p1 ∧
      p1.KeyIndex = some ((p.KeyIndex.getD 0 + 1) % 2 ^ 32) := by
  unfold AddProcessKeys at h
  rw [hp] at h
  cases hk : tx.KeyIndex with
  | none => simp [hk] at h
  | some keyIndex =>
    simp only [hk] at h
    cases hproc : v.Process pid false with
    | error e => simp [hproc, bind, Except.bind] at h
    | ok p =>
      simp only [hproc, bind, Except.bind] at h
      cases hc : tx.CommitmentKey <;> cases he : tx.EncryptionPublicKey <;>
        simp only [hc, he, pure, Except.pure] at h <;>
        (repeat' split at h) <;>
        first
          | (exfalso; exact Except.noConfusion h)
          | (rename_i v0 hu
             cases h
             exact ⟨p, _, rfl, Process_after_update v v0 _ pid _ hu, by simp_all⟩)

theorem RevealProcessKeys_ok (v v1 : State) (tx : AdminTx) (pid : Bytes)
    (hp : tx.ProcessId = some pid) (h : RevealProcessKeys v tx = .ok v1) :
    ∃ p k p1, v.Process pid false = .ok p ∧ p.KeyIndex = some k ∧ 1 ≤ k ∧
      v1.Process pid false = .ok p1 ∧ p1.KeyIndex = some (k - 1) := by
  unfold RevealProcessKeys at h
  rw [hp] at h
  cases hk : tx.KeyIndex with
  | none => simp [hk] at h
  | some keyIndex =>
    simp only [hk] at h
    cases hproc : v.Process pid false with
    | error e => simp [hproc, bind, Except.bind] at h
    | ok p =>
      simp only [hproc, bind, Except.bind] at h
      cases hpk : p.KeyIndex with
      | none => simp [hpk] at h
      | some k =>
        simp only [hpk] at h
        by_cases hlt : k < 1
        · simp [hlt] at h
        · simp only [hlt, if_false] at h
          cases hc : tx.RevealKey <;> cases he : tx.EncryptionPrivateKey <;>
            simp only [hc, he, pure, Except.pure] at h <;>
            (repeat' split at h) <;>
            first
              | (exfalso; exact Except.noConfusion h)
              | (rename_i v0 hu
                 cases h
                 exact ⟨p, k, _, rfl, hpk, by omega,
                   Process_after_update v v0 _ pid _ hu, by simp_all⟩)

theorem RevealProcessKeys_guard (v : State) (tx : AdminTx) (pid : Bytes) (p : Process)
    (hp : tx.ProcessId = some pid) (hproc : v.Process pid false = .ok p)
    (hk : p.KeyIndex = none ∨ ∃ k, p.KeyIndex = some k ∧ k < 1) :
    ∃ e, RevealProcessKeys v tx = .error e := by
  unfold RevealProcessKeys
  rw [hp]
  cases hki : tx.KeyIndex with
  | none => exact ⟨_, rfl⟩
  | some keyIndex =>
    rcases hk with hn | ⟨k, hs, hlt⟩
    · exact ⟨.msg "no keys to reveal, keyIndex is < 1", by simp [hproc, bind, Except.bind, hn]⟩
    · exact ⟨.msg "no keys to reveal, keyIndex is < 1",
        by simp [hproc, bind, Except.bind, hs, hlt]⟩

theorem keyIndexOf_add (v v1 : State) (tx : AdminTx) (pid : Bytes)
    (hp : tx.ProcessId = some pid) (h : AddProcessKeys v tx = .ok v1) :
    keyIndexOf v1 pid = (keyIndexOf v pid + 1) % 2 ^ 32 := by
  obtain ⟨p, p1, h0, h1, hk⟩ := AddProcessKeys_ok v v1 tx pid hp h
  simp [keyIndexOf, h0, h1, hk]

theorem keyIndexOf_reveal (v v1 : State) (tx : AdminTx) (pid : Bytes)
    (hp : tx.ProcessId = some pid) (h : RevealProcessKeys v tx = .ok v1) :
    1 ≤ keyIndexOf v pid ∧ keyIndexOf v1 pid = keyIndexOf v pid - 1 := by
  obtain ⟨p, k, p1, h0, hk, hle, h1, hk1⟩ := RevealProcessKeys_ok v v1 tx pid hp h
  simp [keyIndexOf, h0, h1, hk, hk1, hle]

theorem run_counts (pid : Bytes) (calls : List KeyCall) :
    ∀ v : State, (∀ c ∈ calls, c.tx.ProcessId = some pid) →
      keyIndexOf v pid + countOk true v calls < 2 ^ 32 →
      keyIndexOf (runKeyCalls v calls) pid + countOk false v calls =
        keyIndexOf v pid + countOk true v calls := by
  induction calls with
  | nil => intro v _ _; simp [runKeyCalls, countOk]
  | cons c rest ih =>
    intro v hpid hN
    have hc : c.tx.ProcessId = some pid := hpid c (List.mem_cons_self _ _)
    have hrest : ∀ c ∈ rest, c.tx.ProcessId = some pid :=
      fun c1 h1 => hpid c1 (List.mem_cons_of_mem _ h1)
    cases hr : c.run v with
    | error e =>
      simp only [countOk, runKeyCalls, hr, State.after, Nat.zero_add] at hN ⊢
      exact ih v hrest hN
    | ok v1 =>
      cases c with
      | add tx =>
        have hk := keyIndexOf_add v v1 tx pid hc hr
        simp only [countOk, runKeyCalls, hr, State.after, KeyCall.isAdd, if_true] at hN ⊢
        have hlt : keyIndexOf v pid + 1 < 2 ^ 32 := by omega
        rw [Nat.mod_eq_of_lt hlt] at hk
        have := ih v1 hrest (by omega)
        simp at this ⊢
        omega
      | reveal tx =>
        have hk := keyIndexOf_reveal v v1 tx pid hc hr
        simp only [countOk, runKeyCalls, hr, State.after, KeyCall.isAdd] at hN ⊢
        have := ih v1 hrest (by simp at hN ⊢; omega)
        simp at this hN ⊢
        omega

theorem countOk_take_le (adds : Bool) (calls : List KeyCall) :
    ∀ (v : State) (n : Nat), countOk adds v (calls.take n) ≤ countOk adds v calls := by
  induction calls with
  | nil => intro v n; simp [countOk]
  | cons c rest ih =>
    intro v n
    cases n with
    | zero => simp [countOk]
    | succ n =>
      simp only [List.take_succ_cons, countOk]
      exact Nat.add_le_add_left (ih _ n) _

/-! ## Process keys: the claims -/

/-- C1, as stated, fails. On a process whose key index is unset, a reveal
and then an add are one `AddProcessKeys` and one `RevealProcessKeys`, so that
N = M = 1 and N ≥ M, and the key index after them is 1, not N − M = 0: the
reveal, attempted at key index 0, is refused. -/
theorem key_index_reveal_then_add :
    keyIndexOf keyState pid0 = 0 ∧
    [KeyCall.reveal keyTx, KeyCall.add keyTx].countP KeyCall.isAdd = 1 ∧
    [KeyCall.reveal keyTx, KeyCall.add keyTx].countP (fun c => !c.isAdd) = 1 ∧
    keyIndexOf (runKeyCalls keyState [KeyCall.reveal keyTx, KeyCall.add keyTx]) pid0 = 1 :=
  ⟨rfl, rfl, rfl, rfl⟩

/-- C1, amended. From a process whose key index is 0 or unset, along any
sequence of `AddProcessKeys` and `RevealProcessKeys` calls on that process,
with N the adds that succeed and M the reveals that succeed, N below `2 ^ 32`:
after every call of the sequence M ≤ N holds for the calls made so far and the
key index is N − M. -/
theorem key_index_counts_successes (v : State) (pid : Bytes) (calls : List KeyCall)
    (h0 : keyIndexOf v pid = 0)
    (hpid : ∀ c ∈ calls, c.tx.ProcessId = some pid)
    (hN : countOk true v calls < 2 ^ 32) :
    ∀ n, countOk false v (calls.take n) ≤ countOk true v (calls.take n) ∧
      keyIndexOf (runKeyCalls v (calls.take n)) pid =
        countOk true v (calls.take n) - countOk false v (calls.take n) := by
  intro n
  have hle := countOk_take_le true calls v n
  have := run_counts pid (calls.take n) v
    (fun c hc => hpid c (List.mem_of_mem_take hc)) (by omega)
  omega

/-- Two adds and a reveal on a process whose key index is unset: all three
succeed and the key index ends at 1. -/
theorem key_index_counts_successes_witness :
    keyIndexOf keyState pid0 = 0 ∧
    (∀ c ∈ keyCalls, c.tx.ProcessId = some pid0) ∧
    countOk true keyState keyCalls < 2 ^ 32 ∧
    countOk true keyState keyCalls = 2 ∧ countOk false keyState keyCalls = 1 ∧
    ∀ n, countOk false keyState (keyCalls.take n) ≤ countOk true keyState (keyCalls.take n) ∧
      keyIndexOf (runKeyCalls keyState (keyCalls.take n)) pid0 =
        countOk true keyState (keyCalls.take n) - countOk false keyState (keyCalls.take n) :=
  have hpid : ∀ c ∈ keyCalls, c.tx.ProcessId = some pid0 := by
    intro c hc
    simp only [keyCalls, List.mem_cons, List.mem_singleton, List.not_mem_nil, or_false] at hc
    rcases hc with rfl | rfl | rfl <;> rfl
  have hN : countOk true keyState keyCalls < 2 ^ 32 := by decide
  ⟨rfl, hpid, hN, rfl, rfl, key_index_counts_successes keyState pid0 keyCalls rfl hpid hN⟩

/-- C2. `RevealProcessKeys` never makes the key index negative. When the key
index of the process is unset or below 1 the call returns an error and leaves
the state as it was, the stored process and the log of listener calls
included; when the call succeeds the key index was at least 1 and is one less
afterwards. -/
theorem RevealProcessKeys_never_negative (v : State) (tx : AdminTx) (pid : Bytes)
    (p : Process) (hp : tx.ProcessId = some pid) (hproc : v.Process pid false = .ok p) :
    ((p.KeyIndex = none ∨ ∃ k, p.KeyIndex = some k ∧ k < 1) →
      (∃ e, RevealProcessKeys v tx = .error e) ∧
      v.after (RevealProcessKeys v tx) = v) ∧
    (∀ v1, RevealProcessKeys v tx = .ok v1 →
      ∃ k p1, p.KeyIndex = some (k + 1) ∧ v1.Process pid false = .ok p1 ∧
        p1.KeyIndex = some k) := by
  constructor
  · intro hk
    obtain ⟨e, he⟩ := RevealProcessKeys_guard v tx pid p hp hproc hk
    exact ⟨⟨e, he⟩, by simp [State.after, he]⟩
  · intro v1 h
    obtain ⟨p0, k, p1, h0, hk, hle, h1, hk1⟩ := RevealProcessKeys_ok v v1 tx pid hp h
    rw [hproc] at h0
    cases h0
    refine ⟨k - 1, p1, ?_, h1, hk1⟩
    rw [hk]
    congr 1
    omega

/-- A reveal on a process whose key index is unset. -/
theorem RevealProcessKeys_never_negative_witness :
    keyTx1.ProcessId = some pid0 ∧
    keyState.Process pid0 false = .ok
      { ProcessId := pid0, EncryptionPrivateKeys := ["", ""], EncryptionPublicKeys := ["", ""],
        CommitmentKeys := ["", ""], RevealKeys := ["", ""] } ∧
    (∃ e, RevealProcessKeys keyState keyTx1 = .error e) ∧
    keyState.after (RevealProcessKeys keyState keyTx1) = keyState :=
  ⟨rfl, rfl,
    (RevealProcessKeys_never_negative keyState keyTx1 pid0 _ rfl rfl).1 (Or.inl rfl)⟩

/-- C3, as stated, fails. On a process whose key index is the largest
`uint32` an `AddProcessKeys` succeeds and the key index afterwards is 0, which
is not greater than before. -/
theorem AddProcessKeys_wraps :
    keyIndexOf keyStateMax pid0 = 4294967295 ∧
    ∃ v1, AddProcessKeys keyStateMax keyTx = .ok v1 ∧ keyIndexOf v1 pid0 = 0 :=
  ⟨rfl, _, rfl, rfl⟩

/-- C3, amended. After an `AddProcessKeys` that succeeds the stored key index
of the process is the previous value plus one modulo `2 ^ 32`, an unset index
counting as zero: it is the previous value plus one, and so strictly greater,
whenever the previous value is below the largest `uint32`. -/
theorem AddProcessKeys_increments (v v1 : State) (tx : AdminTx) (pid : Bytes)
    (hp : tx.ProcessId = some pid) (h : AddProcessKeys v tx = .ok v1) :
    (∃ p1, v1.Process pid false = .ok p1 ∧ p1.KeyIndex = some (keyIndexOf v1 pid)) ∧
    keyIndexOf v1 pid = (keyIndexOf v pid + 1) % 2 ^ 32 ∧
    (keyIndexOf v pid < 2 ^ 32 - 1 →
      keyIndexOf v1 pid = keyIndexOf v pid + 1 ∧ keyIndexOf v pid < keyIndexOf v1 pid) := by
  have hk := keyIndexOf_add v v1 tx pid hp h
  obtain ⟨p, p1, h0, h1, hk1⟩ := AddProcessKeys_ok v v1 tx pid hp h
  refine ⟨⟨p1, h1, ?_⟩, hk, ?_⟩
  · simp [keyIndexOf, h1, hk1]
  · intro hlt
    rw [Nat.mod_eq_of_lt (by omega)] at hk
    omega

/-- An add on a process whose key index is unset. -/
theorem AddProcessKeys_increments_witness :
    keyTx1.ProcessId = some pid0 ∧
    ∃ v1, AddProcessKeys keyState keyTx1 = .ok v1 ∧
      (∃ p1, v1.Process pid0 false = .ok p1 ∧ p1.KeyIndex = some (keyIndexOf v1 pid0)) ∧
      keyIndexOf v1 pid0 = (keyIndexOf keyState pid0 + 1) % 2 ^ 32 ∧
      (keyIndexOf keyState pid0 < 2 ^ 32 - 1 →
        keyIndexOf v1 pid0 = keyIndexOf keyState pid0 + 1 ∧
          keyIndexOf keyState pid0 < keyIndexOf v1 pid0) :=
  ⟨rfl, _, rfl, AddProcessKeys_increments keyState _ keyTx1 pid0 rfl rfl⟩

/-! ## Votes: facts -/

theorem countP_of_find_none {α : Type} (t : Tree α) (k : Bytes) (h : t.find k = none) :
    t.countP (fun kv => decide (kv.1 = k)) = 0 := by
  induction t with
  | nil => simp
  | cons kv rest ih =>
    obtain ⟨k1, v1⟩ := kv
    by_cases hk : k1 = k
    · simp [Tree.find, hk] at h
    · have h1 : Tree.find rest k = none := by simpa [Tree.find, hk] using h
      simp [List.countP_cons, hk, ih h1]

theorem countP_place {α : Type} (before : Bytes → Bytes → Bool) (t : Tree α) (k : Bytes)
    (v : α) (h : t.find k = none) :
    (t.place before k v).countP (fun kv => decide (kv.1 = k)) = 1 := by
  induction t with
  | nil => simp [Tree.place]
  | cons kv rest ih =>
    obtain ⟨k1, v1⟩ := kv
    by_cases hk : k1 = k
    · simp [Tree.find, hk] at h
    · have h1 : Tree.find rest k = none := by simpa [Tree.find, hk] using h
      by_cases hb : before k1 k = true
      · simp [Tree.place, hb, List.countP_cons, hk, ih h1]
      · simp [Tree.place, hb, List.countP_cons, hk, countP_of_find_none rest k h1]

theorem DeepAddVote_ok (before : Bytes → Bytes → Bool) (f f1 : Forest) (key value pid : Bytes)
    (h : f.DeepAddVote before key value pid = .ok f1) :
    ∃ leaf, f.Processes.find pid = some leaf ∧ leaf.Votes.find key = none ∧
      f1 = { f with
        Processes := f.Processes.replace pid
          { leaf with Votes := leaf.Votes.place before key value } } := by
  unfold Forest.DeepAddVote Tree.Get at h
  cases hf : f.Processes.find pid with
  | none => simp [hf, bind, Except.bind] at h
  | some leaf =>
    cases hv : leaf.Votes.find key with
    | some x => simp [hf, hv, bind, Except.bind, Tree.Add] at h
    | none =>
      simp [hf, hv, bind, Except.bind, Tree.Add, pure, Except.pure] at h
      exact ⟨leaf, rfl, hv, h.symm⟩

theorem DeepAddVote_present (before : Bytes → Bytes → Bool) (f : Forest)
    (key value pid old : Bytes) (leaf : ProcessLeaf) (hf : f.Processes.find pid = some leaf)
    (hv : leaf.Votes.find key = some old) :
    f.DeepAddVote before key value pid = .error .KeyAlreadyExists := by
  simp [Forest.DeepAddVote, Tree.Get, hf, hv, bind, Except.bind, Tree.Add]

theorem AddVote_ok (env : Env) (v v1 : State) (vote : Vote) (h : AddVote env v vote = .ok v1) :
    ∃ vid voteBytes sdbVoteBytes leaf,
      voteID env vote.ProcessId vote.Nullifier = .ok vid ∧
      env.marshalVote (stamp v vote) = .ok voteBytes ∧
      env.marshalStateDBVote ⟨env.HashRaw voteBytes, vote.ProcessId, vote.Nullifier⟩ =
        .ok sdbVoteBytes ∧
      v.Tx.Processes.find vote.ProcessId = some leaf ∧
      leaf.Votes.find vid = none ∧
      v1 = State.fire
        { v with Tx := { v.Tx with
            Processes := v.Tx.Processes.replace vote.ProcessId
              { leaf with Votes := leaf.Votes.place env.before vid sdbVoteBytes } } }
        (.OnVote (stamp v vote) v.txCounter) := by
  unfold AddVote at h
  cases hv : voteID env vote.ProcessId vote.Nullifier with
  | error e => simp [hv, bind, Except.bind] at h
  | ok vid =>
    cases hm : env.marshalVote (stamp v vote) with
    | error e => simp [hv, hm, bind, Except.bind] at h
    | ok voteBytes =>
      cases hs : env.marshalStateDBVote
          ⟨env.HashRaw voteBytes, vote.ProcessId, vote.Nullifier⟩ with
      | error e =>
        have hs1 := hs
        simp only [stamp] at hm
        simp [hv, hm, stamp, hs1, bind, Except.bind, pure, Except.pure] at h
      | ok sdbVoteBytes =>
        have hs1 := hs
        simp only [stamp] at hm
        cases hd : v.Tx.DeepAddVote env.before vid sdbVoteBytes vote.ProcessId with
        | error e => simp [hv, hm, stamp, hs1, hd, bind, Except.bind, pure, Except.pure] at h
        | ok tx =>
          simp [hv, hm, stamp, hs1, hd, bind, Except.bind, pure, Except.pure] at h
          obtain ⟨leaf, hf, hn, rfl⟩ := DeepAddVote_ok _ _ _ _ _ _ hd
          exact ⟨vid, voteBytes, sdbVoteBytes, leaf, rfl, rfl, hs, hf, hn,
            by rw [← h]; rfl⟩

theorem AddVote_present (env : Env) (v : State) (vote : Vote) (vid old : Bytes)
    (leaf : ProcessLeaf) (hv : voteID env vote.ProcessId vote.Nullifier = .ok vid)
    (hf : v.Tx.Processes.find vote.ProcessId = some leaf)
    (ho : leaf.Votes.find vid = some old) : ∃ e, AddVote env v vote = .error e := by
  unfold AddVote
  cases hm : env.marshalVote (stamp v vote) with
  | error e =>
    simp only [stamp] at hm
    exact ⟨.wrap "cannot marshal vote" e, by simp [hv, hm, stamp, bind, Except.bind]⟩
  | ok voteBytes =>
    simp only [stamp] at hm
    cases hs : env.marshalStateDBVote
        ⟨env.HashRaw voteBytes, vote.ProcessId, vote.Nullifier⟩ with
    | error e =>
      exact ⟨.wrap "cannot marshal sdbVote" e,
        by simp [hv, hm, stamp, hs, bind, Except.bind, pure, Except.pure]⟩
    | ok sdbVoteBytes =>
      have hd := DeepAddVote_present env.before v.Tx vid sdbVoteBytes vote.ProcessId old leaf hf ho
      exact ⟨.KeyAlreadyExists,
        by simp [hv, hm, stamp, hs, hd, bind, Except.bind, pure, Except.pure]⟩

theorem Envelope_of_find (env : Env) (v : State) (pid nullifier : Bytes) (isQuery : Bool)
    (vid value : Bytes) (leaf : ProcessLeaf) (x : StateDBVote)
    (hv : voteID env pid nullifier = .ok vid)
    (hf : (v.mainTreeViewer isQuery).Processes.find pid = some leaf)
    (hb : leaf.Votes.find vid = some value) (hu : env.unmarshalStateDBVote value = .ok x) :
    Envelope env v pid nullifier isQuery = .ok x.VoteHash := by
  simp [Envelope, hv, bind, Except.bind, Forest.DeepSubTreeVotes, Tree.Get, hf, hb, hu, pure,
    Except.pure]

theorem Envelope_of_find_none (env : Env) (v : State) (pid nullifier : Bytes) (isQuery : Bool)
    (vid : Bytes) (leaf : ProcessLeaf) (hv : voteID env pid nullifier = .ok vid)
    (hf : (v.mainTreeViewer isQuery).Processes.find pid = some leaf)
    (hb : leaf.Votes.find vid = none) :
    Envelope env v pid nullifier isQuery = .error .VoteDoesNotExist := by
  simp [Envelope, hv, bind, Except.bind, Forest.DeepSubTreeVotes, Tree.Get, hf, hb, pure,
    Except.pure]

theorem toy_round_trip (x : StateDBVote) (b : Bytes) (h : toyMarshal x = .ok b) :
    toyUnmarshal b = .ok x := by
  simp only [toyMarshal, Except.ok.injEq] at h
  subst h
  simp [toyUnmarshal]

theorem countP_place_other {α : Type} (before : Bytes → Bytes → Bool) (t : Tree α)
    (k k2 : Bytes) (v : α) (h : k ≠ k2) :
    (t.place before k v).countP (fun kv => decide (kv.1 = k2)) =
      t.countP (fun kv => decide (kv.1 = k2)) := by
  induction t with
  | nil => simp [Tree.place, h]
  | cons kv rest ih =>
    obtain ⟨k1, v1⟩ := kv
    by_cases hb : before k1 k = true
    · simp [Tree.place, hb, List.countP_cons, ih]
    · simp [Tree.place, hb, List.countP_cons, h]

theorem HoldsVote_AddVote (env : Env) (v : State) (x : Vote) (pid vid value : Bytes)
    (h : HoldsVote v pid vid value) : HoldsVote (v.after (AddVote env v x)) pid vid value := by
  cases hr : AddVote env v x with
  | error e => simpa [State.after] using h
  | ok v1 =>
    obtain ⟨vid1, voteBytes, sdbVoteBytes, leaf1, -, -, -, hf1, hn1, rfl⟩ :=
      AddVote_ok env v v1 x hr
    obtain ⟨leaf, hf, hv, hc⟩ := h
    simp only [State.after, HoldsVote, State.fire]
    by_cases hp : pid = x.ProcessId
    · subst hp
      rw [hf] at hf1
      cases hf1
      have hne : vid1 ≠ vid := by
        intro e
        rw [e, hv] at hn1
        cases hn1
      refine ⟨_, Tree.find_replace_self _ _ _ (by simp [hf]), ?_, ?_⟩
      · rw [Tree.find_place_other env.before _ vid1 vid sdbVoteBytes (fun e => hne e.symm)]
        exact hv
      · rw [countP_place_other env.before _ vid1 vid sdbVoteBytes hne]
        exact hc
    · exact ⟨leaf, by rw [Tree.find_replace_other _ _ _ _ hp]; exact hf, hv, hc⟩

theorem HoldsVote_runVotes (env : Env) (others : List Vote) (pid vid value : Bytes) :
    ∀ v : State, HoldsVote v pid vid value → HoldsVote (runVotes env v others) pid vid value := by
  induction others with
  | nil => intro v h; exact h
  | cons x rest ih =>
    intro v h
    exact ih _ (HoldsVote_AddVote env v x pid vid value h)

theorem HoldsVote_of_AddVote (env : Env) (v v1 : State) (vote : Vote)
    (h : AddVote env v vote = .ok v1) :
    ∃ vid value, voteID env vote.ProcessId vote.Nullifier = .ok vid ∧
      HoldsVote v1 vote.ProcessId vid value := by
  obtain ⟨vid, voteBytes, sdbVoteBytes, leaf, hv, -, -, hf, hn, rfl⟩ := AddVote_ok env v v1 vote h
  refine ⟨vid, sdbVoteBytes, hv, ?_⟩
  unfold HoldsVote
  refine ⟨{ leaf with Votes := leaf.Votes.place env.before vid sdbVoteBytes }, ?_, ?_, ?_⟩
  · exact Tree.find_replace_self _ _ _ (by simp [hf])
  · exact Tree.find_place_self env.before leaf.Votes vid sdbVoteBytes hn
  · exact countP_place env.before leaf.Votes vid sdbVoteBytes hn

/-! ## Votes: the claims -/

/-- C4. Vote uniqueness. Once `AddVote` has succeeded for a process and a
nullifier, and after any further `AddVote` calls, an `AddVote` with the same
process and nullifier returns an error and leaves the state as it was, the
votes sub-tree and the log of listener calls included (no `OnVote` is fired),
and the votes sub-tree of the process holds exactly one envelope for the
nullifier. -/
theorem AddVote_twice (env : Env) (v v1 : State) (vote vote2 : Vote) (others : List Vote)
    (h : AddVote env v vote = .ok v1)
    (hp : vote2.ProcessId = vote.ProcessId) (hn : vote2.Nullifier = vote.Nullifier) :
    (∃ e, AddVote env (runVotes env v1 others) vote2 = .error e) ∧
    (runVotes env v1 others).after (AddVote env (runVotes env v1 others) vote2) =
      runVotes env v1 others ∧
    ∃ vid votes, voteID env vote.ProcessId vote.Nullifier = .ok vid ∧
      (runVotes env v1 others).Tx.DeepSubTreeVotes vote.ProcessId = .ok votes ∧
      votes.countP (fun kv => decide (kv.1 = vid)) = 1 := by
  obtain ⟨vid, value, hv, hold⟩ := HoldsVote_of_AddVote env v v1 vote h
  obtain ⟨leaf, hf, hfv, hc⟩ := HoldsVote_runVotes env others _ _ _ v1 hold
  have herr : ∃ e, AddVote env (runVotes env v1 others) vote2 = .error e :=
    AddVote_present env _ vote2 vid value leaf (by rw [hp, hn]; exact hv) (by rw [hp]; exact hf)
      hfv
  refine ⟨herr, ?_, vid, leaf.Votes, hv, ?_, hc⟩
  · obtain ⟨e, he⟩ := herr
    simp [State.after, he]
  · simp [Forest.DeepSubTreeVotes, Tree.Get, hf, bind, Except.bind, pure, Except.pure]

/-- A vote, then a vote with another nullifier, then the first vote again. -/
theorem AddVote_twice_witness :
    vote0.ProcessId = vote0.ProcessId ∧ vote0.Nullifier = vote0.Nullifier ∧
    ∃ v1, AddVote toyEnv2 genesis vote0 = .ok v1 ∧
      (runVotes toyEnv2 v1 [vote1]).calls.length = 2 ∧
      (∃ e, AddVote toyEnv2 (runVotes toyEnv2 v1 [vote1]) vote0 = .error e) ∧
      (runVotes toyEnv2 v1 [vote1]).after (AddVote toyEnv2 (runVotes toyEnv2 v1 [vote1]) vote0) =
        runVotes toyEnv2 v1 [vote1] ∧
      ∃ vid votes, voteID toyEnv2 vote0.ProcessId vote0.Nullifier = .ok vid ∧
        (runVotes toyEnv2 v1 [vote1]).Tx.DeepSubTreeVotes vote0.ProcessId = .ok votes ∧
        votes.countP (fun kv => decide (kv.1 = vid)) = 1 :=
  ⟨rfl, rfl, _, rfl, rfl, AddVote_twice toyEnv2 genesis _ vote0 vote0 [vote1] rfl rfl rfl⟩

/-- C5. `voteID(pid, nullifier)` is `sha256(pid ‖ nullifier)` exactly when
the process identifier has `ProcessIDsize` bytes and the nullifier has
`VoteNullifierSize` bytes; for every other pair of lengths it is an error, and
`AddVote` and `Envelope` then fail with that error, the state untouched. -/
theorem voteID_sizes (env : Env) (pid nullifier : Bytes) :
    (voteID env pid nullifier = .ok (env.sha256 (pid ++ nullifier)) ↔
      pid.length = env.ProcessIDsize ∧ nullifier.length = env.VoteNullifierSize) ∧
    ((∃ e, voteID env pid nullifier = .error e) ↔
      ¬ (pid.length = env.ProcessIDsize ∧ nullifier.length = env.VoteNullifierSize)) ∧
    ∀ e, voteID env pid nullifier = .error e →
      (∀ (v : State) (vote : Vote), vote.ProcessId = pid → vote.Nullifier = nullifier →
        AddVote env v vote = .error e ∧ v.after (AddVote env v vote) = v) ∧
      ∀ (v : State) (isQuery : Bool), Envelope env v pid nullifier isQuery = .error e := by
  refine ⟨?_, ?_, ?_⟩
  · unfold voteID
    by_cases h1 : pid.length = env.ProcessIDsize <;>
      by_cases h2 : nullifier.length = env.VoteNullifierSize <;> simp [h1, h2]
  · unfold voteID
    by_cases h1 : pid.length = env.ProcessIDsize <;>
      by_cases h2 : nullifier.length = env.VoteNullifierSize <;> simp [h1, h2]
  · intro e he
    constructor
    · intro v vote hp hn
      have : AddVote env v vote = .error e := by
        simp [AddVote, hp, hn, he, bind, Except.bind]
      exact ⟨this, by simp [State.after, this]⟩
    · intro v isQuery
      simp [Envelope, he, bind, Except.bind]

/-- C6. Vote round trip. After `AddVote(vote)` succeeds, `Envelope` on the
process and nullifier of the vote, on the write context, returns the hash of
the serialized vote that `AddVote` stored, and `EnvelopeExists` returns true
with no error. For a process that exists and holds no vote under the vote
identifier, `Envelope` returns `ErrVoteDoesNotExist` and `EnvelopeExists`
returns false with no error. The record encoding is taken to decode what it
encoded and the hash not to be empty. -/
theorem vote_round_trip (env : Env)
    (hrt : ∀ x b, env.marshalStateDBVote x = .ok b → env.unmarshalStateDBVote b = .ok x)
    (hhash : ∀ b, env.HashRaw b ≠ []) :
    (∀ (v v1 : State) (vote : Vote), AddVote env v vote = .ok v1 →
      ∃ voteBytes, env.marshalVote (stamp v vote) = .ok voteBytes ∧
        Envelope env v1 vote.ProcessId vote.Nullifier false = .ok (env.HashRaw voteBytes) ∧
        EnvelopeExists env v1 vote.ProcessId vote.Nullifier false = .ok true) ∧
    (∀ (v : State) (pid nullifier vid : Bytes) (isQuery : Bool) (leaf : ProcessLeaf),
      voteID env pid nullifier = .ok vid →
      (v.mainTreeViewer isQuery).Processes.find pid = some leaf →
      leaf.Votes.find vid = none →
      Envelope env v pid nullifier isQuery = .error .VoteDoesNotExist ∧
        EnvelopeExists env v pid nullifier isQuery = .ok false) := by
  constructor
  · intro v v1 vote h
    obtain ⟨vid, voteBytes, sdbVoteBytes, leaf, hv, hm, hs, hf, hn, rfl⟩ :=
      AddVote_ok env v v1 vote h
    have henv := Envelope_of_find env
      (State.fire { v with Tx := { v.Tx with
          Processes := v.Tx.Processes.replace vote.ProcessId
            { leaf with Votes := leaf.Votes.place env.before vid sdbVoteBytes } } }
        (.OnVote (stamp v vote) v.txCounter))
      vote.ProcessId vote.Nullifier false vid sdbVoteBytes _ _ hv
      (Tree.find_replace_self _ _ _ (by simp [hf]))
      (Tree.find_place_self env.before leaf.Votes vid sdbVoteBytes hn) (hrt _ _ hs)
    refine ⟨voteBytes, hm, henv, ?_⟩
    simp [EnvelopeExists, henv, hhash]
  · intro v pid nullifier vid isQuery leaf hv hf hn
    have henv := Envelope_of_find_none env v pid nullifier isQuery vid leaf hv hf hn
    exact ⟨henv, by simp [EnvelopeExists, henv]⟩

/-- A vote on a process without votes, under the toy encoding. -/
theorem vote_round_trip_witness :
    (∀ x b, toyEnv.marshalStateDBVote x = .ok b → toyEnv.unmarshalStateDBVote b = .ok x) ∧
    (∀ b, toyEnv.HashRaw b ≠ []) ∧
    (∃ v1, AddVote toyEnv genesis vote0 = .ok v1 ∧
      ∃ voteBytes, toyEnv.marshalVote (stamp genesis vote0) = .ok voteBytes ∧
        Envelope toyEnv v1 vote0.ProcessId vote0.Nullifier false =
          .ok (toyEnv.HashRaw voteBytes) ∧
        EnvelopeExists toyEnv v1 vote0.ProcessId vote0.Nullifier false = .ok true) ∧
    Envelope toyEnv genesis pid0 nullifier0 true = .error .VoteDoesNotExist ∧
    EnvelopeExists toyEnv genesis pid0 nullifier0 true = .ok false :=
  have hrt : ∀ x b, toyEnv.marshalStateDBVote x = .ok b → toyEnv.unmarshalStateDBVote b = .ok x :=
    toy_round_trip
  have hhash : ∀ b, toyEnv.HashRaw b ≠ [] := fun _ => List.cons_ne_nil _ _
  ⟨hrt, hhash, ⟨_, rfl, (vote_round_trip toyEnv hrt hhash).1 genesis _ vote0 rfl⟩,
    (vote_round_trip toyEnv hrt hhash).2 genesis pid0 nullifier0 pid0 true _ rfl rfl rfl⟩

/-- C7. The height stamped on a vote is not the height of the block that
includes it. On a state just created, `BeginBlock` writes the header of block
1; the vote added in that block reaches `OnVote` with height 0 and is hashed
into the envelope with height 0; the `Save` of the block then calls
`Commit(1)` and sets the height of the state to 1. -/
theorem vote_height_lags :
    ((BeginBlock genesis { Height := 1 }).Header false).Height = 1 ∧
    ∃ v2, AddVote toyEnv (BeginBlock genesis { Height := 1 }) vote0 = .ok v2 ∧
      v2.calls = [(0, .Rollback), (0, .OnVote { vote0 with Height := 0 } 0)] ∧
      toyEnv.marshalVote { vote0 with Height := 0 } = .ok (0 :: (pid0 ++ nullifier0 ++ [5])) ∧
      Envelope toyEnv v2 pid0 nullifier0 false =
        .ok (toyEnv.HashRaw (0 :: (pid0 ++ nullifier0 ++ [5]))) ∧
      (Save toyEnv v2).1.calls =
        [(0, .Rollback), (0, .OnVote { vote0 with Height := 0 } 0), (0, .Commit 1)] ∧
      (Save toyEnv v2).1.Height = 1 :=
  ⟨rfl, _, rfl, rfl, rfl, rfl, rfl, rfl⟩

/-! ## Oracles: the shape is kept -/

theorem OraclesOK_RemoveOracle (env : Env) (v v1 : State) (address : Bytes)
    (h : OraclesOK v.Tx.Oracles) (h1 : RemoveOracle env v address = .ok v1) :
    OraclesOK v1.Tx.Oracles := by
  unfold RemoveOracle Tree.Get at h1
  cases hf : v.Tx.Oracles.find address with
  | none => simp [hf] at h1
  | some old =>
    simp only [hf, Except.ok.injEq] at h1
    subst h1
    rw [Set_of_find env.before _ address old [] hf]
    exact OraclesOK_replace _ address [] h

theorem Sprintf_x_example : Sprintf_x (some [171, 1, 255]) = "ab01ff" := by decide

/-! ## Roots kept in the parent leaf: the claims -/

/-- C18. Root embedding for singleton sub-trees. For a parent leaf value of 32
bytes and a root of 32 bytes, `rootLeafSetRoot` succeeds and `rootLeafGetRoot`
of its result is the root; `rootLeafGetRoot` of the value is the value itself;
and both functions return an error when the parent leaf value is not of 32
bytes, whatever the root. -/
theorem rootLeaf_round_trip (value root : Bytes) :
    (value.length = 32 → root.length = 32 →
      ∃ newValue, rootLeafSetRoot value root = .ok newValue ∧
        rootLeafGetRoot newValue = .ok root) ∧
    (value.length = 32 → rootLeafGetRoot value = .ok value) ∧
    (value.length ≠ 32 →
      (∃ e, rootLeafGetRoot value = .error e) ∧ ∃ e, rootLeafSetRoot value root = .error e) := by
  refine ⟨?_, ?_, ?_⟩
  · intro hv hr
    exact ⟨root, by simp [rootLeafSetRoot, hv], by simp [rootLeafGetRoot, hr]⟩
  · intro hv
    simp [rootLeafGetRoot, hv]
  · intro hv
    exact ⟨⟨_, by simp [rootLeafGetRoot, hv]; rfl⟩, ⟨_, by simp [rootLeafSetRoot, hv]; rfl⟩⟩

/-- C20. The query `getBlockHeight` on a header that is not nil returns the
code 1 with the text cannot get height and no value, and on the nil header it
returns the code 0: the test on the pointer is the inverse of what the claim
says. -/
theorem getBlockHeight_inverted :
    QueryGetBlockHeight toyMarshalHeader (some { Height := 7 }) =
      { Code := 1, Value := [], Info := "cannot get height" } ∧
    toyMarshalHeader (some { Height := 7 }) = .ok [7] ∧
    QueryGetBlockHeight toyMarshalHeader none = { Code := 0, Value := [], Info := "" } :=
  ⟨rfl, rfl, rfl⟩

/-! ## Commit and rollback: facts -/

theorem commitListeners_no_halt (ls : List EventListener) (height : Nat) :
    ∀ (i : Nat) (calls : List (Nat × Call)), (∀ l ∈ ls, ¬ l.halts height) →
      commitListeners ls i height calls =
        (calls ++ (List.range' i ls.length).map (fun j => (j, Call.Commit height)), none) := by
  induction ls with
  | nil => intro i calls _; simp [commitListeners]
  | cons l rest ih =>
    intro i calls h
    have hl : ¬ l.halts height := h l (List.mem_cons_self _ _)
    have hrest : ∀ l ∈ rest, ¬ l.halts height := fun l1 h1 => h l1 (List.mem_cons_of_mem _ h1)
    unfold commitListeners
    cases hc : l.Commit height with
    | none => simp [ih (i + 1) _ hrest, List.range'_succ]
    | some e =>
      cases e with
      | HaltVochain reason => exact absurd ⟨reason, hc⟩ hl
      | _ => simp [ih (i + 1) _ hrest, List.range'_succ]

theorem commitListeners_halt (pre post : List EventListener) (l : EventListener)
    (height : Nat) (reason : String) (hl : l.Commit height = some (.HaltVochain reason)) :
    ∀ (i : Nat) (calls : List (Nat × Call)), (∀ l ∈ pre, ¬ l.halts height) →
      commitListeners (pre ++ l :: post) i height calls =
        (calls ++ (List.range' i (pre.length + 1)).map (fun j => (j, Call.Commit height)),
          some (.HaltVochain reason)) := by
  induction pre with
  | nil =>
    intro i calls _
    simp [commitListeners, hl]
  | cons l0 rest ih =>
    intro i calls h
    have hl0 : ¬ l0.halts height := h l0 (List.mem_cons_self _ _)
    have hrest : ∀ l ∈ rest, ¬ l.halts height := fun l1 h1 => h l1 (List.mem_cons_of_mem _ h1)
    simp only [List.cons_append, List.length_cons]
    unfold commitListeners
    cases hc : l0.Commit height with
    | none => simp [ih (i + 1) _ hrest, List.range'_succ]
    | some e =>
      cases e with
      | HaltVochain r0 => exact absurd ⟨r0, hc⟩ hl0
      | _ => simp [ih (i + 1) _ hrest, List.range'_succ]

theorem Save_no_halt (env : Env) (v : State)
    (h : ∀ l ∈ v.eventListeners, ¬ l.halts (uint32OfInt v.Tx.Header.Height)) :
    Save env v =
      ({ v with Store := v.Tx, mainTreeView := v.Tx, height := uint32OfInt v.Tx.Header.Height,
                calls := v.calls ++ (List.range' 0 v.eventListeners.length).map
                  (fun j => (j, Call.Commit (uint32OfInt v.Tx.Header.Height))) },
        .ok (env.Hash v.Tx)) := by
  have := commitListeners_no_halt v.eventListeners (uint32OfInt v.Tx.Header.Height) 0 v.calls h
  simp [Save, State.Header, State.mainTreeViewer, this]

theorem Save_halt (env : Env) (v : State) (pre post : List EventListener) (l : EventListener)
    (reason : String) (hls : v.eventListeners = pre ++ l :: post)
    (hl : l.Commit (uint32OfInt v.Tx.Header.Height) = some (.HaltVochain reason))
    (h : ∀ l ∈ pre, ¬ l.halts (uint32OfInt v.Tx.Header.Height)) :
    Save env v =
      ({ v with Store := v.Tx, mainTreeView := v.Tx,
                calls := v.calls ++ (List.range' 0 (pre.length + 1)).map
                  (fun j => (j, Call.Commit (uint32OfInt v.Tx.Header.Height))) },
        .error (.HaltVochain reason)) := by
  have := commitListeners_halt pre post l (uint32OfInt v.Tx.Header.Height) reason hl 0 v.calls h
  simp [Save, State.Header, State.mainTreeViewer, hls, this]

theorem uint32OfInt_of_range (h : Int) (h0 : 0 ≤ h) (h1 : h < 2 ^ 32) :
    (uint32OfInt h : Int) = h := by
  unfold uint32OfInt
  rw [Int.emod_eq_of_lt h0 h1]
  exact Int.toNat_of_nonneg h0

/-! ## Commit and rollback: the claims -/

/-- C14, as stated, fails. A listener halts on the `Commit` of block 7, the
state height being 6: the three listeners are called with `Commit(7)`, `Save`
returns the halt, and `Height()` is still 6 afterwards. -/
theorem Save_halt_keeps_height :
    (blockSeven halting).Tx.Header.Height = 7 ∧
    (Save toyEnv (blockSeven halting)).2 = .error (.HaltVochain "disk full") ∧
    (Save toyEnv (blockSeven halting)).1.calls =
      [(0, .Commit 7), (1, .Commit 7), (2, .Commit 7)] ∧
    (Save toyEnv (blockSeven halting)).1.Store = (blockSeven halting).Tx ∧
    (Save toyEnv (blockSeven halting)).1.Height = 6 :=
  ⟨rfl, rfl, rfl, rfl, rfl⟩

/-- C14, amended. `Save` stores the height of the state after the `Commit`
calls on the listeners, and only when none of them halts: after a `Save` in
which no listener halts `Height()` is the height of the committed header;
after a `Save` that a listener halts, be it the last one, the listeners up to
that one have been called, the write context is committed, and `Height()` is
what it was before the `Save`. -/
theorem Save_stores_height_last (env : Env) (v : State) :
    ((∀ l ∈ v.eventListeners, ¬ l.halts (uint32OfInt v.Tx.Header.Height)) →
      (Save env v).1.Height = uint32OfInt v.Tx.Header.Height ∧
      (0 ≤ v.Tx.Header.Height → v.Tx.Header.Height < 2 ^ 32 →
        ((Save env v).1.Height : Int) = (Save env v).1.Store.Header.Height)) ∧
    (∀ (pre post : List EventListener) (l : EventListener) (reason : String),
      v.eventListeners = pre ++ l :: post →
      (∀ l ∈ pre, ¬ l.halts (uint32OfInt v.Tx.Header.Height)) →
      l.Commit (uint32OfInt v.Tx.Header.Height) = some (.HaltVochain reason) →
      (Save env v).1.calls = v.calls ++ (List.range (pre.length + 1)).map
        (fun j => (j, Call.Commit (uint32OfInt v.Tx.Header.Height))) ∧
      (Save env v).1.Store = v.Tx ∧
      (Save env v).1.Height = v.Height) := by
  constructor
  · intro h
    rw [Save_no_halt env v h]
    exact ⟨rfl, fun h0 h1 => uint32OfInt_of_range _ h0 h1⟩
  · intro pre post l reason hls hpre hl
    rw [Save_halt env v pre post l reason hls hl hpre, List.range_eq_range']
    exact ⟨rfl, rfl, rfl⟩

/-- A block of height 7 over a state height of 6, saved with no halt. -/
theorem Save_stores_height_last_witness :
    (∀ l ∈ (blockSeven quiet).eventListeners, ¬ l.halts 7) ∧
    (Save toyEnv (blockSeven quiet)).1.Height = 7 ∧
    ((Save toyEnv (blockSeven quiet)).1.Height : Int) =
      (Save toyEnv (blockSeven quiet)).1.Store.Header.Height :=
  have h : ∀ l ∈ (blockSeven quiet).eventListeners, ¬ l.halts 7 := by
    intro l hl
    simp only [blockSeven, List.mem_cons, List.mem_singleton, List.not_mem_nil, or_false] at hl
    rcases hl with rfl | rfl | rfl <;> rintro ⟨r, hr⟩ <;> simp [quiet, failing] at hr
  ⟨h, ((Save_stores_height_last toyEnv (blockSeven quiet)).1 h).1,
    ((Save_stores_height_last toyEnv (blockSeven quiet)).1 h).2 (by decide) (by decide)⟩

/-- C15. `Rollback` discards the uncommitted work: after it the working root
is the root of the version last committed, the transaction counter is 0 and
every listener has received one `Rollback` call, in the order of registration.
A second `Rollback`, and a second `BeginBlock` with no transaction in between,
leave the trees, the counter, the height and the working root as the first
did. -/
theorem Rollback_discards (env : Env) (v : State) :
    (Rollback v).Tx = v.Store ∧
    WorkingHash env (Rollback v) = env.Hash v.Store ∧
    (Rollback v).TxCounter = 0 ∧
    (Rollback v).calls =
      v.calls ++ (List.range v.eventListeners.length).map (fun i => (i, Call.Rollback)) ∧
    ((Rollback (Rollback v)).Tx = (Rollback v).Tx ∧
      (Rollback (Rollback v)).Store = (Rollback v).Store ∧
      (Rollback (Rollback v)).mainTreeView = (Rollback v).mainTreeView ∧
      (Rollback (Rollback v)).TxCounter = (Rollback v).TxCounter ∧
      (Rollback (Rollback v)).Height = (Rollback v).Height ∧
      WorkingHash env (Rollback (Rollback v)) = WorkingHash env (Rollback v)) ∧
    ∀ h1 h2 : TendermintHeader,
      (BeginBlock (BeginBlock v h1) h2).Tx = (BeginBlock v h2).Tx ∧
      (BeginBlock (BeginBlock v h1) h2).Store = (BeginBlock v h2).Store ∧
      (BeginBlock (BeginBlock v h1) h2).mainTreeView = (BeginBlock v h2).mainTreeView ∧
      (BeginBlock (BeginBlock v h1) h2).TxCounter = (BeginBlock v h2).TxCounter ∧
      (BeginBlock (BeginBlock v h1) h2).Height = (BeginBlock v h2).Height ∧
      WorkingHash env (BeginBlock (BeginBlock v h1) h2) = WorkingHash env (BeginBlock v h2) := by
  refine ⟨rfl, rfl, rfl, rfl, ⟨rfl, rfl, rfl, rfl, rfl, rfl⟩, ?_⟩
  intro h1 h2
  exact ⟨rfl, rfl, rfl, rfl, rfl, rfl⟩

/-! ## The transaction counter: facts -/

theorem AddProcessKeys_fire (v v1 : State) (tx : AdminTx) (h : AddProcessKeys v tx = .ok v1) :
    ∃ pid p v0, tx.ProcessId = some pid ∧ v.updateProcess p pid = .ok v0 ∧
      v1 = v0.fire (.OnProcessKeys pid (Sprintf_x tx.EncryptionPublicKey)
        (Sprintf_x tx.CommitmentKey) v0.TxCounter) := by
  unfold AddProcessKeys at h
  cases hp : tx.ProcessId with
  | none => simp [hp] at h
  | some pid =>
    cases hk : tx.KeyIndex with
    | none => simp [hp, hk] at h
    | some keyIndex =>
      simp only [hp, hk] at h
      cases hproc : v.Process pid false with
      | error e => simp [hproc, bind, Except.bind] at h
      | ok p =>
        simp only [hproc, bind, Except.bind] at h
        cases hc : tx.CommitmentKey <;> cases he : tx.EncryptionPublicKey <;>
          simp only [hc, he, pure, Except.pure] at h <;>
          (repeat' split at h) <;>
          first
            | (exfalso; exact Except.noConfusion h)
            | (rename_i v0 hu
               cases h
               exact ⟨pid, _, v0, rfl, hu, rfl⟩)

theorem RevealProcessKeys_fire (v v1 : State) (tx : AdminTx)
    (h : RevealProcessKeys v tx = .ok v1) :
    ∃ pid p v0 ekey rkey, tx.ProcessId = some pid ∧ v.updateProcess p pid = .ok v0 ∧
      v1 = v0.fire (.OnRevealKeys pid ekey rkey v0.TxCounter) := by
  unfold RevealProcessKeys at h
  cases hp : tx.ProcessId with
  | none => simp [hp] at h
  | some pid =>
    cases hk : tx.KeyIndex with
    | none => simp [hp, hk] at h
    | some keyIndex =>
      simp only [hp, hk] at h
      cases hproc : v.Process pid false with
      | error e => simp [hproc, bind, Except.bind] at h
      | ok p =>
        simp only [hproc, bind, Except.bind] at h
        cases hpk : p.KeyIndex with
        | none => simp [hpk] at h
        | some k =>
          simp only [hpk] at h
          by_cases hlt : k < 1
          · simp [hlt] at h
          · simp only [hlt, if_false] at h
            cases hc : tx.RevealKey <;> cases he : tx.EncryptionPrivateKey <;>
              simp only [hc, he, pure, Except.pure] at h <;>
              (repeat' split at h) <;>
              first
                | (exfalso; exact Except.noConfusion h)
                | (rename_i v0 hu
                   cases h
                   exact ⟨pid, _, v0, _, _, rfl, hu, rfl⟩)

theorem updateProcess_frame (v v0 : State) (p : Process) (pid : Bytes)
    (h : v.updateProcess p pid = .ok v0) :
    v0.txCounter = v.txCounter ∧ v0.eventListeners = v.eventListeners ∧ v0.calls = v.calls ∧
      v0.mainTreeView = v.mainTreeView ∧ v0.Store = v.Store ∧ v0.height = v.height := by
  obtain ⟨leaf, -, rfl⟩ := updateProcess_ok v v0 p pid h
  exact ⟨rfl, rfl, rfl, rfl, rfl, rfl⟩

theorem BlockOp_run_frame (env : Env) (v : State) (op : BlockOp) (hop : op ≠ .counterAdd) :
    (op.run env v).txCounter = v.txCounter ∧
      (op.run env v).eventListeners = v.eventListeners := by
  cases op with
  | counterAdd => exact absurd rfl hop
  | vote x =>
    simp only [BlockOp.run]
    cases hr : AddVote env v x with
    | error e => exact ⟨rfl, rfl⟩
    | ok v1 =>
      obtain ⟨vid, voteBytes, sdbVoteBytes, leaf, -, -, -, -, -, rfl⟩ := AddVote_ok env v v1 x hr
      exact ⟨rfl, rfl⟩
  | addKeys tx =>
    simp only [BlockOp.run]
    cases hr : AddProcessKeys v tx with
    | error e => exact ⟨rfl, rfl⟩
    | ok v1 =>
      obtain ⟨pid, p, v0, -, hu, rfl⟩ := AddProcessKeys_fire v v1 tx hr
      obtain ⟨h1, h2, -⟩ := updateProcess_frame v v0 p pid hu
      exact ⟨h1, h2⟩
  | revealKeys tx =>
    simp only [BlockOp.run]
    cases hr : RevealProcessKeys v tx with
    | error e => exact ⟨rfl, rfl⟩
    | ok v1 =>
      obtain ⟨pid, p, v0, ekey, rkey, -, hu, rfl⟩ := RevealProcessKeys_fire v v1 tx hr
      obtain ⟨h1, h2, -⟩ := updateProcess_frame v v0 p pid hu
      exact ⟨h1, h2⟩

theorem TxCounterAdd_of_range (v : State) (k : Nat) (hv : v.txCounter = k)
    (hk : k + 1 < 2 ^ 31) : v.TxCounterAdd.txCounter = (k + 1 : Nat) := by
  simp only [State.TxCounterAdd, hv]
  omega

theorem runBlock_counter (env : Env) (ops : List BlockOp) :
    ∀ (v : State) (k : Nat), v.txCounter = k → k + countAdds ops < 2 ^ 31 →
      (runBlock env v ops).txCounter = (k + countAdds ops : Nat) ∧
        (runBlock env v ops).eventListeners = v.eventListeners := by
  induction ops with
  | nil => intro v k hv _; simp [runBlock, countAdds, hv]
  | cons op rest ih =>
    intro v k hv hk
    by_cases hop : op = .counterAdd
    · subst hop
      simp only [countAdds] at hk ⊢
      have := ih v.TxCounterAdd (k + 1) (TxCounterAdd_of_range v k hv (by omega)) (by omega)
      simp only [runBlock, BlockOp.run]
      refine ⟨?_, this.2⟩
      rw [this.1]
      congr 1
      omega
    · obtain ⟨h1, h2⟩ := BlockOp_run_frame env v op hop
      have hc : countAdds (op :: rest) = countAdds rest := by
        cases op with
        | counterAdd => exact absurd rfl hop
        | _ => rfl
      rw [hc] at hk ⊢
      have := ih (op.run env v) k (by rw [h1]; exact hv) hk
      simp only [runBlock]
      exact ⟨this.1, by rw [this.2, h2]⟩

theorem countAdds_replicate (k : Nat) : countAdds (List.replicate k .counterAdd) = k := by
  induction k with
  | zero => rfl
  | succ k ih => simp [List.replicate_succ, countAdds, ih]

/-! ## The transaction counter: the claim -/

/-- C16. The index of a transaction. After a `Rollback` and any steps of a
block, of which k, below `2 ^ 31`, are calls of `TxCounterAdd`, `TxCounter()`
is k; and a transaction that succeeds then passes to every listener, with
`OnVote`, `OnProcessKeys` or `OnRevealKeys`, the index k, the number of
`TxCounterAdd` calls since the `Rollback`. -/
theorem txIndex_is_ordinal (env : Env) (v : State) (ops : List BlockOp)
    (hk : countAdds ops < 2 ^ 31) :
    (runBlock env (Rollback v) ops).TxCounter = (countAdds ops : Nat) ∧
    (∀ k : Nat, k < 2 ^ 31 →
      (runBlock env (Rollback v) (List.replicate k .counterAdd)).TxCounter = (k : Nat)) ∧
    (∀ x s1, AddVote env (runBlock env (Rollback v) ops) x = .ok s1 →
      s1.calls = (runBlock env (Rollback v) ops).calls ++
        (List.range v.eventListeners.length).map
          (fun i => (i, Call.OnVote (stamp (runBlock env (Rollback v) ops) x) (countAdds ops)))) ∧
    (∀ tx s1, AddProcessKeys (runBlock env (Rollback v) ops) tx = .ok s1 →
      ∃ pid, tx.ProcessId = some pid ∧
        s1.calls = (runBlock env (Rollback v) ops).calls ++
          (List.range v.eventListeners.length).map
            (fun i => (i, Call.OnProcessKeys pid (Sprintf_x tx.EncryptionPublicKey)
              (Sprintf_x tx.CommitmentKey) (countAdds ops)))) ∧
    (∀ tx s1, RevealProcessKeys (runBlock env (Rollback v) ops) tx = .ok s1 →
      ∃ pid ekey rkey, tx.ProcessId = some pid ∧
        s1.calls = (runBlock env (Rollback v) ops).calls ++
          (List.range v.eventListeners.length).map
            (fun i => (i, Call.OnRevealKeys pid ekey rkey (countAdds ops)))) := by
  have hrun := runBlock_counter env ops (Rollback v) 0 rfl (by omega)
  have hc : (runBlock env (Rollback v) ops).txCounter = (countAdds ops : Nat) := by
    rw [hrun.1]; simp
  have hl : (runBlock env (Rollback v) ops).eventListeners = v.eventListeners := hrun.2
  refine ⟨hc, ?_, ?_, ?_, ?_⟩
  · intro k hk1
    have := runBlock_counter env (List.replicate k .counterAdd) (Rollback v) 0 rfl
      (by rw [countAdds_replicate]; omega)
    rw [countAdds_replicate] at this
    simp only [State.TxCounter, this.1]
    simp
  · intro x s1 h
    obtain ⟨vid, voteBytes, sdbVoteBytes, leaf, -, -, -, -, -, rfl⟩ := AddVote_ok env _ s1 x h
    simp only [State.fire, hl, hc]
  · intro tx s1 h
    obtain ⟨pid, p, v0, hp, hu, rfl⟩ := AddProcessKeys_fire _ s1 tx h
    obtain ⟨h1, h2, h3, -⟩ := updateProcess_frame _ v0 p pid hu
    exact ⟨pid, hp, by simp only [State.fire, State.TxCounter, h1, h2, h3, hl, hc]⟩
  · intro tx s1 h
    obtain ⟨pid, p, v0, ekey, rkey, hp, hu, rfl⟩ := RevealProcessKeys_fire _ s1 tx h
    obtain ⟨h1, h2, h3, -⟩ := updateProcess_frame _ v0 p pid hu
    exact ⟨pid, ekey, rkey, hp, by simp only [State.fire, State.TxCounter, h1, h2, h3, hl, hc]⟩

/-- A block of two votes, each followed by the increment of the counter: the
listener sees the first with index 0 and the second with index 1, and the
counter ends at 2. -/
theorem txIndex_is_ordinal_witness :
    countAdds twoVotesBlock < 2 ^ 31 ∧
    (runBlock toyEnv2 (Rollback genesis) twoVotesBlock).calls =
      [(0, .Rollback), (0, .OnVote vote0 0), (0, .OnVote vote1 1)] ∧
    (runBlock toyEnv2 (Rollback genesis) twoVotesBlock).TxCounter = (countAdds twoVotesBlock : Nat) :=
  ⟨by decide, rfl, (txIndex_is_ordinal toyEnv2 genesis twoVotesBlock (by decide)).1⟩

/-! ## The order of the oracles: facts -/

theorem addOracles_Tx (env : Env) (as : List Bytes) :
    ∀ v : State, (addOracles env v as).Tx.Oracles =
      as.foldl (fun t a => t.Set env.before a exist) v.Tx.Oracles := by
  induction as with
  | nil => intro v; rfl
  | cons a rest ih =>
    intro v
    simp only [addOracles, List.foldl_cons]
    rw [ih]
    rfl

theorem Oracles_write (v : State) :
    Oracles v false = .ok ((v.Tx.Oracles.filter
      fun kv => decide (kv.2 ≠ [])).map fun kv => BytesToAddress kv.1) :=
  Oracles_eq v false

theorem Oracles_two (env : Env) (v : State) (A B : Bytes) (h0 : v.Tx.Oracles = [])
    (hne : A ≠ B) (hA : A.length = AddressLength) (hB : B.length = AddressLength) :
    Oracles (addOracles env v [A, B]) false =
      .ok (if env.before A B = true then [A, B] else [B, A]) := by
  have hAB : ¬ A = B := hne
  rw [Oracles_write, addOracles_Tx, h0]
  simp only [List.foldl_cons, List.foldl_nil]
  by_cases hb : env.before A B = true
  · simp [Tree.Set, Tree.find, Tree.place, hAB, hb, exist, BytesToAddress_of_length, hA, hB]
  · simp [Tree.Set, Tree.find, Tree.place, hAB, hb, exist, BytesToAddress_of_length, hA, hB]

theorem insertion_order_both_ways (env : Env) (v : State) (A B : Bytes)
    (h0 : v.Tx.Oracles = []) (hne : A ≠ B) (hA : A.length = AddressLength)
    (hB : B.length = AddressLength)
    (h1 : Oracles (addOracles env v [A, B]) false = .ok [A, B])
    (h2 : Oracles (addOracles env v [B, A]) false = .ok [B, A]) :
    env.before A B = true ∧ env.before B A = true := by
  rw [Oracles_two env v A B h0 hne hA hB] at h1
  rw [Oracles_two env v B A h0 (fun e => hne e.symm) hB hA] at h2
  constructor
  · by_cases hb : env.before A B = true
    · exact hb
    · simp [hb, hne] at h1
  · by_cases hb : env.before B A = true
    · exact hb
    · simp [hb, hne] at h2

/-! ## The order of the oracles: the claim -/

/-- C19. Root embedding for the sub-trees of a process. For a parent leaf value
that decodes as a process record with its process present, and a root r:
`processSetVotesRoot` returns a value whose `processGetVotesRoot` is r and
which decodes to the same record with the votes root replaced, the census root
and every other field as they were; and `processSetCensusRoot` returns a value
whose `processGetCensusRoot` is r and which decodes to the same record with the
census root of the process replaced, the votes root and every other field as
they were. The encoding is taken to encode the two records written and to
decode them back. -/
theorem process_roots_round_trip (w : Wire) (value root : Bytes) (x : StateDBProcess)
    (p : Process) (hv : w.unmarshalStateDBProcess value = .ok x) (hp : x.Process = some p)
    (hvotes : ∃ b, w.marshalStateDBProcess { x with VotesRoot := root } = .ok b ∧
      w.unmarshalStateDBProcess b = .ok { x with VotesRoot := root })
    (hcensus : ∃ b,
      w.marshalStateDBProcess { x with Process := some { p with CensusRoot := root } } = .ok b ∧
      w.unmarshalStateDBProcess b =
        .ok { x with Process := some { p with CensusRoot := root } }) :
    (∃ newValue, processSetVotesRoot w value root = .ok newValue ∧
      processGetVotesRoot w newValue = .ok root ∧
      w.unmarshalStateDBProcess newValue = .ok { x with VotesRoot := root } ∧
      processGetCensusRoot w newValue = processGetCensusRoot w value) ∧
    (∃ newValue, processSetCensusRoot w value root = .ok newValue ∧
      processGetCensusRoot w newValue = .ok root ∧
      w.unmarshalStateDBProcess newValue =
        .ok { x with Process := some { p with CensusRoot := root } } ∧
      processGetVotesRoot w newValue = processGetVotesRoot w value) := by
  obtain ⟨b1, hm1, hu1⟩ := hvotes
  obtain ⟨b2, hm2, hu2⟩ := hcensus
  constructor
  · refine ⟨b1, ?_, ?_, hu1, ?_⟩
    · simp [processSetVotesRoot, hv, hm1]
    · simp [processGetVotesRoot, hu1]
    · simp [processGetCensusRoot, hu1, hv, hp]
  · refine ⟨b2, ?_, ?_, hu2, ?_⟩
    · simp [processSetCensusRoot, hv, hp, hm2]
    · simp [processGetCensusRoot, hu2]
    · simp [processGetVotesRoot, hu2, hv]

/-- The two roots of a record replaced in turn, under the toy encoding. -/
theorem process_roots_round_trip_witness :
    toyWire.unmarshalStateDBProcess [1, 2, 1, 2, 3] = .ok record0 ∧
    record0.Process = some { CensusRoot := [1, 2] } ∧
    (∃ newValue, processSetVotesRoot toyWire [1, 2, 1, 2, 3] [9, 9] = .ok newValue ∧
      processGetVotesRoot toyWire newValue = .ok [9, 9] ∧
      toyWire.unmarshalStateDBProcess newValue = .ok { record0 with VotesRoot := [9, 9] } ∧
      processGetCensusRoot toyWire newValue = processGetCensusRoot toyWire [1, 2, 1, 2, 3]) ∧
    (∃ newValue, processSetCensusRoot toyWire [1, 2, 1, 2, 3] [9, 9] = .ok newValue ∧
      processGetCensusRoot toyWire newValue = .ok [9, 9] ∧
      toyWire.unmarshalStateDBProcess newValue =
        .ok { record0 with Process := some { CensusRoot := [9, 9] } } ∧
      processGetVotesRoot toyWire newValue = processGetVotesRoot toyWire [1, 2, 1, 2, 3]) :=
  ⟨rfl, rfl,
    process_roots_round_trip toyWire [1, 2, 1, 2, 3] [9, 9] record0 { CensusRoot := [1, 2] }
      rfl rfl ⟨_, rfl, rfl⟩ ⟨_, rfl, rfl⟩⟩

/-! ## Reads and writes: facts -/

/-- C30 (evaluation at the failing input): on the empty byte string, which
decodes as the record with no field set, and on the encoding of a record that
has a votes root and no process, `processGetCensusRoot` and
`processSetCensusRoot` dereference the missing process, a run-time panic and
neither a value nor an error, while `processGetVotesRoot` and
`processSetVotesRoot` return a value on the same inputs. -/
theorem censusRoot_accessors_dereference_nil :
    processGetCensusRoot emptyWire [] = .error (.fault "nil pointer dereference") ∧
    processSetCensusRoot emptyWire [] [9] = .error (.fault "nil pointer dereference") ∧
    processGetVotesRoot emptyWire [] = .ok [] ∧
    processSetVotesRoot emptyWire [] [9] = .ok [0, 9] ∧
    toyMarshalProcess { Process := none, VotesRoot := [3] } = .ok [0, 3] ∧
    processGetCensusRoot toyWire [0, 3] = .error (.fault "nil pointer dereference") ∧
    processSetCensusRoot toyWire [0, 3] [9] = .error (.fault "nil pointer dereference") ∧
    processGetVotesRoot toyWire [0, 3] = .ok [3] ∧
    processSetVotesRoot toyWire [0, 3] [9] = .ok [0, 9] :=
  ⟨rfl, rfl, rfl, rfl, rfl, rfl, rfl, rfl, rfl⟩

/-! ## Counting and paging the votes of a process -/

/-- C23. For every name in `AvailableChains`, `SpecsFor` succeeds and returns
specs whose field `Name` is that name; for every name that is not in
`AvailableChains`, `SpecsFor` returns no specs and the error
`chain name not found`. -/
theorem SpecsFor_AvailableChains :
    (∀ name ∈ AvailableChains, ∃ s, SpecsFor name = .ok s ∧ s.Name = name) ∧
    ∀ name, name ∉ AvailableChains → SpecsFor name = .error (.msg "chain name not found") := by
  constructor
  · intro name h
    simp only [AvailableChains, List.mem_cons, List.mem_singleton, List.not_mem_nil,
      or_false] at h
    rcases h with rfl | rfl | rfl | rfl | rfl | rfl <;> exact ⟨_, rfl, rfl⟩
  · intro name h
    simp only [AvailableChains, List.mem_cons, List.mem_singleton, List.not_mem_nil,
      or_false, not_or] at h
    obtain ⟨h1, h2, h3, h4, h5, h6⟩ := h
    simp [SpecsFor, h1, h2, h3, h4, h5, h6]

/-! ## The census tree over claims -/

theorem copyBytes_zeros (n : Nat) (src : Bytes) (h : src.length ≤ n) :
    copyBytes (List.replicate n 0) src 0 = src ++ List.replicate (n - src.length) 0 := by
  simp [copyBytes, copyCount, Nat.min_eq_right h, List.take_of_length_le (le_refl _)]

/-- C28. For slots whose lengths a byte can hold, an index of at most
`MaxIndexSize` bytes and a value of at most `MaxValueSize` bytes,
`getClaimFromData` succeeds and `getDataFromClaim` returns from the claim
exactly the index and the value, whether or not they are empty or end in zero
bytes. -/
theorem claim_round_trip (s : Slots) (index value : Bytes)
    (hv2 : 2 ≤ s.ValueSlotLen) (hI : s.IndexSlotLen < 256) (hV : s.ValueSlotLen < 258)
    (hi : index.length ≤ MaxIndexSize s) (hv : value.length ≤ MaxValueSize s) :
    ∃ c, getClaimFromData s index value = .ok c ∧ getDataFromClaim c = .ok (index, value) := by
  unfold MaxIndexSize at hi
  unfold MaxValueSize at hv
  obtain ⟨n, hn⟩ : ∃ n, s.ValueSlotLen = n + 2 := ⟨s.ValueSlotLen - 2, by omega⟩
  have h1 : ¬ index.length > s.IndexSlotLen := by omega
  have h2 : ¬ value.length > s.ValueSlotLen := by omega
  have hle : value.length ≤ n := by omega
  refine ⟨_, by simp only [getClaimFromData, h1, h2, if_false]; rfl, ?_⟩
  have hmi : index.length % 256 = index.length := Nat.mod_eq_of_lt (by omega)
  have hmv : value.length % 256 = value.length := Nat.mod_eq_of_lt (by omega)
  have hslot : copyBytes (((List.replicate s.ValueSlotLen 0).set 0 (index.length % 256)).set 1
      (value.length % 256)) value 2 =
      index.length :: value.length :: (value ++ List.replicate (n - value.length) 0) := by
    have e2 : 2 + value.length = value.length + 1 + 1 := by omega
    rw [hn, hmi, hmv]
    simp [copyBytes, copyCount, List.replicate_succ, Nat.min_eq_right hle, e2]
  rw [hslot, copyBytes_zeros _ _ hi]
  simp [getDataFromClaim]

/-- An index of four bytes that ends in a zero byte with a value that ends in
a zero byte, and the empty index with the empty value. -/
theorem claim_round_trip_witness :
    (∃ c, getClaimFromData slots index4 [5, 0] = .ok c ∧
      getDataFromClaim c = .ok (index4, [5, 0])) ∧
    ∃ c, getClaimFromData slots [] [] = .ok c ∧ getDataFromClaim c = .ok ([], []) :=
  ⟨claim_round_trip slots index4 [5, 0] (by decide) (by decide) (by decide) (by decide)
      (by decide),
    claim_round_trip slots [] [] (by decide) (by decide) (by decide) (by decide) (by decide)⟩

theorem getClaimFromData_error_iff (s : Slots) (index value : Bytes) :
    (∃ e, getClaimFromData s index value = .error e) ↔
      index.length > s.IndexSlotLen ∨ value.length > s.ValueSlotLen := by
  unfold getClaimFromData
  by_cases h1 : index.length > s.IndexSlotLen
  · simp [h1]
  · by_cases h2 : value.length > s.ValueSlotLen
    · simp [h1, h2]
    · simp [h1, h2]

/-- C24 (evaluation at the failing input). With slots of 50 and 62 bytes
`MaxValueSize` is 60; for a value of 62 bytes, and for one of 61 bytes,
`getClaimFromData` returns no error and a claim that keeps the first 60 bytes
of the value only, `Add` and `CheckProof` return no error either, and
`getDataFromClaim` on that claim slices past the end of the value slot. -/
theorem getClaimFromData_truncates :
    MaxValueSize slots = 60 ∧
    getClaimFromData slots index4 (List.replicate 62 7) =
      .ok ⟨index4 ++ List.replicate 46 0, 4 :: 62 :: List.replicate 60 7⟩ ∧
    getClaimFromData slots index4 (List.replicate 61 7) =
      .ok ⟨index4 ++ List.replicate 46 0, 4 :: 61 :: List.replicate 60 7⟩ ∧
    Iden3tree.Add slots toyMerkle index4 (List.replicate 62 7) = none ∧
    CheckProof slots toyMerkle root32 proof0 index4 (List.replicate 62 7) = .ok false ∧
    getDataFromClaim ⟨index4 ++ List.replicate 46 0, 4 :: 62 :: List.replicate 60 7⟩ =
      .error (.fault "slice bounds out of range") ∧
    getDataFromClaim ⟨index4 ++ List.replicate 46 0, 4 :: 61 :: List.replicate 60 7⟩ =
      .error (.fault "slice bounds out of range") :=
  ⟨rfl, rfl, rfl, rfl, rfl, rfl, rfl⟩

theorem CheckProof_take (s : Slots) (m : Merkle) (root mproof index value : Bytes)
    (h : 32 ≤ root.length) :
    CheckProof s m root mproof index value = CheckProof s m (root.take 32) mproof index value := by
  have h1 : copyCount (List.replicate 32 0) root 0 = 32 := by
    simp [copyCount, Nat.min_eq_left h]
  have h2 : copyCount (List.replicate 32 0) (root.take 32) 0 = 32 := by
    simp [copyCount, Nat.min_eq_left h]
  have h3 : copyBytes (List.replicate 32 0) root 0 =
      copyBytes (List.replicate 32 0) (root.take 32) 0 := by
    unfold copyBytes
    rw [h1, h2, List.take_take]
    simp
  simp only [CheckProof, h1, h2, h3]

/-- C25 (evaluation at the failing input). For a root of 33 bytes, the 32
bytes of `root32` and one more, `CheckProof` returns no error: it verifies the
proof against the first 32 bytes, as for the root `root32` itself. A root of
31 bytes is an error. -/
theorem CheckProof_long_root :
    (root32 ++ [9]).length = 33 ∧
    CheckProof slots toyMerkle (root32 ++ [9]) proof0 index4 [5] = .ok true ∧
    CheckProof slots toyMerkle root32 proof0 index4 [5] = .ok true ∧
    CheckProof slots toyMerkle (root32.take 31) proof0 index4 [5] =
      .error (.msg "root hash size is not correct (got 31 expected 32)") :=
  ⟨rfl, rfl, rfl, by rfl⟩

/-! ## Signatures -/

/-- C29 (evaluation at the failing input). The signature `0x1b` decodes to
one byte and the empty signature to none: `AddrFromSignature` reads the
element 64 past the end of either, and `Verify` slices either past its
capacity, both a run-time panic and not an error. On a signature of 32 bytes
`Verify` returns a result: the slice runs past the end of the decoded
signature. A recovery byte other than 27 and 28 is an error. -/
theorem signature_reads_past_end :
    hexDecodeString (sanitizeHex "0x1b") = .ok [27] ∧
    AddrFromSignature toyCrypto "hello" "0x1b" = .error (.fault "index out of range") ∧
    AddrFromSignature toyCrypto "hello" "" = .error (.fault "index out of range") ∧
    Signature.Verify toyCrypto "hello" "0x1b" "0a" =
      .error (.fault "slice bounds out of range") ∧
    Signature.Verify toyCrypto "hello" "" "0a" = .error (.fault "slice bounds out of range") ∧
    (hexDecodeString (sanitizeHex sigHex32)).map List.length = .ok 32 ∧
    Signature.Verify toyCrypto "hello" sigHex32 "0a" = .ok false ∧
    AddrFromSignature toyCrypto "hello" sigHex29 = .error (.msg "Bad recovery hex") :=
  ⟨by rfl, by rfl, by rfl, by rfl, by rfl, by rfl, by rfl, by rfl⟩

/-! ## The rolling census of a process -/

theorem leValue_leBytes (k : Nat) : ∀ n, leValue (leBytes k n) = n % 256 ^ k := by
  induction k with
  | zero => intro n; simp [leBytes, leValue, Nat.mod_one]
  | succ k ih =>
    intro n
    simp only [leBytes, leValue, ih]
    rw [pow_succ, Nat.mul_comm (256 ^ k) 256, Nat.mod_mul]

theorem length_leBytes (k : Nat) : ∀ n, (leBytes k n).length = k := by
  induction k with
  | zero => intro n; rfl
  | succ k ih => intro n; simp [leBytes, ih]

theorem Uint64_PutUint64 (n : Nat) (h : n < 2 ^ 64) : Uint64 (PutUint64 n) = n := by
  unfold Uint64 PutUint64
  rw [List.take_of_length_le (by rw [length_leBytes]), leValue_leBytes]
  exact Nat.mod_eq_of_lt (by norm_num at h ⊢; exact h)

theorem PutUint64_injective (i j : Nat) (hi : i < 2 ^ 64) (hj : j < 2 ^ 64)
    (h : PutUint64 i = PutUint64 j) : i = j := by
  rw [← Uint64_PutUint64 i hi, ← Uint64_PutUint64 j hj, h]

theorem Tree.length_place {α : Type} (before : Bytes → Bytes → Bool) (t : Tree α) (k : Bytes)
    (v : α) : (t.place before k v).length = t.length + 1 := by
  induction t with
  | nil => rfl
  | cons kv rest ih =>
    obtain ⟨k1, v1⟩ := kv
    by_cases hb : before k1 k = true
    · simp [Tree.place, hb, ih]
    · simp [Tree.place, hb]

theorem CensusHolds_add (before : Bytes → Bytes → Bool) (c : RollingCensus) (ks : List Bytes)
    (key : Bytes) (h : CensusHolds c ks) (hk : key ∉ ks) (hn : ks.length < 2 ^ 64) :
    ∃ c1, AddToRollingCensus before c key = .ok c1 ∧ CensusHolds c1 (ks ++ [key]) := by
  obtain ⟨hlen, hent, hrev, hfree⟩ := h
  have h1 : c.KeyIndex.find key = none := hrev key hk
  have h2 : c.Census.find (PutUint64 c.Census.length) = none := by
    rw [hlen]
    exact hfree _ (le_refl _) hn
  refine ⟨⟨c.Census.place before (PutUint64 c.Census.length) key,
    c.KeyIndex.place before key (PutUint64 c.Census.length)⟩, ?_, ?_, ?_, ?_, ?_⟩
  · simp [AddToRollingCensus, Tree.Add, h1, h2, bind, Except.bind, pure, Except.pure]
  · simp [Tree.length_place, hlen]
  · intro j x hj
    by_cases hjl : j < ks.length
    · rw [List.getElem?_append_left hjl] at hj
      obtain ⟨hc, hr⟩ := hent j x hj
      have hx : x ∈ ks := by
        obtain ⟨hlt, hget⟩ := List.getElem?_eq_some_iff.1 hj
        rw [← hget]
        exact List.getElem_mem _
      have hne : x ≠ key := fun e => hk (e ▸ hx)
      have hji : PutUint64 j ≠ PutUint64 c.Census.length := by
        intro e
        have := PutUint64_injective j _ (by omega) (by omega) e
        omega
      exact ⟨by rw [Tree.find_place_other _ _ _ _ _ hji]; exact hc,
        by rw [Tree.find_place_other _ _ _ _ _ hne]; exact hr⟩
    · have hjn : j = ks.length := by
        have := (List.getElem?_eq_some_iff.1 hj).1
        simp at this
        omega
      subst hjn
      simp at hj
      subst hj
      rw [← hlen]
      exact ⟨Tree.find_place_self _ _ _ _ h2, Tree.find_place_self _ _ _ _ h1⟩
  · intro k hkn
    simp only [List.mem_append, List.mem_singleton, not_or] at hkn
    rw [Tree.find_place_other _ _ _ _ _ hkn.2]
    exact hrev k hkn.1
  · intro j hj hj64
    simp only [List.length_append, List.length_singleton] at hj
    have hji : PutUint64 j ≠ PutUint64 c.Census.length := by
      intro e
      have := PutUint64_injective j _ hj64 (by omega) e
      omega
    rw [Tree.find_place_other _ _ _ _ _ hji]
    exact hfree j (by omega) hj64

theorem CensusHolds_addKeys (before : Bytes → Bytes → Bool) (keys : List Bytes) :
    ∀ (c : RollingCensus) (ks : List Bytes), CensusHolds c ks → (ks ++ keys).Nodup →
      (ks ++ keys).length ≤ 2 ^ 64 →
      ∃ c1, addKeys before c keys = .ok c1 ∧ CensusHolds c1 (ks ++ keys) := by
  induction keys with
  | nil => intro c ks h _ _; exact ⟨c, rfl, by simpa using h⟩
  | cons key rest ih =>
    intro c ks h hnd hlen
    have hk : key ∉ ks := by
      intro hm
      have := List.nodup_append.1 hnd
      exact this.2.2 hm (List.mem_cons_self _ _)
    have hn : ks.length < 2 ^ 64 := by
      simp only [List.length_append, List.length_cons] at hlen
      omega
    obtain ⟨c1, h1, hc1⟩ := CensusHolds_add before c ks key h hk hn
    have e : ks ++ key :: rest = (ks ++ [key]) ++ rest := by simp
    obtain ⟨c2, h2, hc2⟩ := ih c1 (ks ++ [key]) hc1 (by rw [← e]; exact hnd)
      (by rw [← e]; exact hlen)
    exact ⟨c2, by simp [addKeys, h1, h2], by rw [e]; exact hc2⟩

/-- C22. From the empty census of a process, after `AddToRollingCensus` on
distinct keys in order, as many as a `uint64` counts, every call succeeds, and
for the key `x` added as number `i`, counted from 0, `KeyToIndex` returns the
8 bytes of `i` in little-endian order, from which `Uint64` reads `i`, and the
read of the census at that index returns `x`. -/
theorem rolling_census_dense (before : Bytes → Bytes → Bool) (keys : List Bytes)
    (hnd : keys.Nodup) (hlen : keys.length ≤ 2 ^ 64) :
    ∃ c, addKeys before {} keys = .ok c ∧
      ∀ i x, keys[i]? = some x →
        KeyToIndex c x = .ok (PutUint64 i) ∧ Uint64 (PutUint64 i) = i ∧
        c.Get (PutUint64 i) = .ok x := by
  have h0 : CensusHolds {} [] :=
    ⟨rfl, fun j x h => by simp at h, fun _ _ => rfl, fun _ _ _ => rfl⟩
  obtain ⟨c, hc, hlen1, hent, -, -⟩ := CensusHolds_addKeys before keys {} [] h0
    (by simpa using hnd) (by simpa using hlen)
  refine ⟨c, hc, ?_⟩
  intro i x hi
  have hil : i < keys.length := (List.getElem?_eq_some_iff.1 hi).1
  obtain ⟨h1, h2⟩ := hent i x (by simpa using hi)
  exact ⟨by simp [KeyToIndex, Tree.Get, h2], Uint64_PutUint64 i (by omega),
    by simp [RollingCensus.Get, Tree.Get, h1]⟩

/-- Three keys whose last byte is zero, added in order. -/
theorem rolling_census_dense_witness :
    threeKeys.Nodup ∧
    ∃ c, addKeys lexBefore {} threeKeys = .ok c ∧
      KeyToIndex c (List.replicate 31 4 ++ [0]) = .ok [1, 0, 0, 0, 0, 0, 0, 0] ∧
      c.Get [1, 0, 0, 0, 0, 0, 0, 0] = .ok (List.replicate 31 4 ++ [0]) :=
  have hnd : threeKeys.Nodup := by decide
  have h := rolling_census_dense lexBefore threeKeys hnd (by decide)
  ⟨hnd, h.elim fun c hc => ⟨c, hc.1, (hc.2 1 _ rfl).1, (hc.2 1 _ rfl).2.2⟩⟩

end Vochain
